import Mathlib

/-!
Verification of the geometry and connectivity core of the `recad_core`
schematic library.

The development shallowly embeds the Rust sources:

* `src/gr.rs` — the quantised point type `Pt` (equality and hashing via
  2-decimal formatting) and the basic geometric records;
* `src/math/transform.rs` — the affine transform pipeline
  (scale, mirror, rotate, translate) over batches of points;
* `src/math/mod.rs` — `pin_position`;
* `src/math/bbox.rs` — `calculate`, the text-outline rule and the symbol
  outline;
* `src/schema.rs`, `src/symbols.rs` — schema/library lookups;
* `src/schema_ploter.rs` — the symbolic position resolver `get_pt`;
* `src/netlist.rs` — wire graph, connection points, depth-first merge and
  net naming.

Modelling conventions:

* `f32` coordinates are modelled as exact rationals (`ℚ`).  Rust's
  `format!("{:.2}", x)` formatting of a finite `f32` rounds the exact
  binary value of `x` to two decimals and keeps the sign; we model the
  formatted text by `fmt2 : ℚ → Bool × ℕ` (sign bit and rounded
  magnitude in hundredths).  An exact tie at a `.xx5` boundary is not
  representable in binary floating point, so the tie-breaking rule is
  immaterial on inputs that arise from `f32` values.
* The `f32` trigonometry pipeline `angle.to_radians()` followed by
  `cos`/`sin` is an external (libm) collaborator; it is passed in as a
  pair of functions `fcos fsin : ℚ → ℚ` mapping an angle in degrees to
  the `f32` cosine/sine of its radian conversion.  `f32` guarantees
  `fcos 0 = 1` and `fsin 0 = 0` exactly; theorems that need these
  identities take them as hypotheses.
* `IndexMap<Pt, _>` is modelled as an insertion-ordered association list
  whose key comparison is the quantised `ptEq`.
* A Rust `panic!`/`unwrap` abort is modelled by an explicit result
  constructor (`Resolved.panicked`, `TextResult.panicked`) or by
  `Option.none`, never by the `Err` branch of a `Result`.
-/

namespace Recad

/-- Absolute value of a rational, written so that the kernel can
evaluate it (`f32::abs`). -/
def absQ (q : ℚ) : ℚ :=
  if q < 0 then -q else q

/-- The 2-decimal formatting used by `impl PartialEq/Hash for Pt` in
`src/gr.rs`: `format!("{:.2}", x)` keeps the sign of the value and rounds
its magnitude to hundredths.  We return the pair (is-negative, magnitude
in hundredths), which determines the formatted text.  For `q = ±n/d` the
magnitude is `⌊|q|·100 + 1/2⌋ = (200·n + d) / (2·d)`, written with
integer arithmetic so that the kernel can evaluate it.  This rounds
halves up, whereas `format!` rounds the exact binary value to the
nearest hundredth with ties to even, and exact tie points are
representable (`0.125f32` formats as `"0.12"`); the two rules agree
everywhere else, and no statement or concrete input in this file sits
on a tie point, so the difference is immaterial here.  Equality and
hashing compare two values through the same formatter, so the theorems
about them hold under either rule, as in the source. -/
def fmt2 (q : ℚ) : Bool × ℕ :=
  (decide (q.num < 0), (q.num.natAbs * 200 + q.den) / (2 * q.den))

/-- `Pt` from `src/gr.rs`: a 2D point in millimetres. -/
structure Pt where
  x : ℚ
  y : ℚ
deriving DecidableEq, Repr, Inhabited

/-- `impl PartialEq for Pt` (`src/gr.rs` lines 37-41): equality of the
formatted strings `"{:.2}x{:.2}"`, i.e. of the quantised coordinates. -/
def ptEq (a b : Pt) : Bool :=
  fmt2 a.x == fmt2 b.x && fmt2 a.y == fmt2 b.y

/-- `impl Hash for Pt` (`src/gr.rs` lines 44-48) hashes the formatted
string; we model the hash by the string's content, so that two points
hash equally exactly when their formatted strings coincide. -/
def ptHash (p : Pt) : (Bool × ℕ) × (Bool × ℕ) :=
  (fmt2 p.x, fmt2 p.y)

/-- `Pos` from `src/gr.rs`: a point plus a rotation angle in degrees. -/
structure Pos where
  x : ℚ
  y : ℚ
  angle : ℚ
deriving DecidableEq, Repr, Inhabited

/-- `impl From<Pos> for Pt` (`src/gr.rs` lines 50-54). -/
def Pos.pt (p : Pos) : Pt := ⟨p.x, p.y⟩

/-- `Rect` from `src/gr.rs`.  The source field `end` is a Lean keyword and
is rendered `stop` here. -/
structure Rect where
  start : Pt
  stop : Pt
deriving DecidableEq, Repr, Inhabited

/-! ### Insertion-ordered maps keyed by quantised points

`IndexMap<Pt, V>` with `Pt`'s quantised `Eq`/`Hash`: an association list
searched with `ptEq`.  `pushEntry` models `map.entry(p).or_default().push(v)`,
`insertPt` models `map.insert(p, v)` (which keeps the original key of an
existing equivalent entry), `lookupPt` models `map.get(&p)`. -/

/-- Association list standing for `IndexMap<Pt, α>`. -/
abbrev PtMap (α : Type) := List (Pt × α)

/-- `map.get(&p)` under the quantised key equality. -/
def lookupPt {α : Type} : PtMap α → Pt → Option α
  | [], _ => none
  | (k, v) :: rest, p => if ptEq k p then some v else lookupPt rest p

/-- `map.entry(p).or_default().push(v)`. -/
def pushEntry {α : Type} : PtMap (List α) → Pt → α → PtMap (List α)
  | [], p, v => [(p, [v])]
  | (k, l) :: rest, p, v =>
    if ptEq k p then (k, l ++ [v]) :: rest else (k, l) :: pushEntry rest p v

/-- `map.insert(p, v)`: replaces the value of an existing equivalent entry
(keeping its key and position), otherwise appends. -/
def insertPt {α : Type} : PtMap α → Pt → α → PtMap α
  | [], p, v => [(p, v)]
  | (k, w) :: rest, p, v =>
    if ptEq k p then (k, v) :: rest else (k, w) :: insertPt rest p v

/-- `Vec<Pt>::contains(&p)` under the quantised `PartialEq`. -/
def memPt (l : List Pt) (p : Pt) : Bool :=
  l.any (fun q => ptEq q p)

/-! ### The transform engine (`src/math/transform.rs`) -/

/-- The mirror axis of a placed symbol.  The source stores an
`Option<String>`; the only values produced by the format are `"x"`, `"y"`
and `"xy"` (`src/schema.rs` line 372: "The only valid values are x, y, and
xy"), any other string would crash the `MIRROR` table lookup.  We model
the valid domain as an enumeration (compare `gr::Mirror`). -/
inductive MirrorAxis where
  | x
  | y
  | xy
deriving DecidableEq, Repr

/-- A 2×2 matrix `[[a, b], [c, d]]` as used by the `MIRROR` table and the
rotation matrix. -/
structure Mat2 where
  a : ℚ
  b : ℚ
  c : ℚ
  d : ℚ

/-- `points.dot(m)` for a single row vector: `[x, y] ⬝ [[a,b],[c,d]]`. -/
def dotRow (p : Pt) (m : Mat2) : Pt :=
  ⟨p.x * m.a + p.y * m.c, p.x * m.b + p.y * m.d⟩

/-- The `MIRROR` matrix table (`src/math/transform.rs` lines 19-27); the
`None` mirror selects the `""` entry `[[1,0],[0,-1]]`. -/
def mirrorMat : Option MirrorAxis → Mat2
  | none => ⟨1, 0, 0, -1⟩
  | some .x => ⟨1, 0, 0, 1⟩
  | some .y => ⟨-1, 0, 0, -1⟩
  | some .xy => ⟨-1, 0, 0, 1⟩

/-- The `Transform` builder record (`src/math/transform.rs` lines 11-17). -/
structure Transform where
  toPt : Pt
  rot : ℚ
  mirr : Option MirrorAxis
  sc : Option ℚ

/-- `Transform::new()`. -/
def Transform.new : Transform := ⟨⟨0, 0⟩, 0, none, none⟩

/-- `Transform::rotation`. -/
def Transform.rotation (t : Transform) (angle : ℚ) : Transform :=
  { t with rot := angle }

/-- `Transform::mirror` (named `mirroring` here because `mirror` is the
field projection). -/
def Transform.mirroring (t : Transform) (axis : Option MirrorAxis) : Transform :=
  { t with mirr := axis }

/-- `Transform::translation`. -/
def Transform.translation (t : Transform) (pt : Pt) : Transform :=
  { t with toPt := pt }

/-- `Transform::scale` (named `scaled` here because `scale` is the field
projection). -/
def Transform.scaled (t : Transform) (s : ℚ) : Transform :=
  { t with sc := some s }

/-- `Transform::transform` (`src/math/transform.rs` lines 60-85): scale
(with baked-in vertical flip), then the mirror matrix (the `None` case is
the Y-flipping `""` matrix), then the rotation matrix
`[[cos θ, -sin θ], [sin θ, cos θ]]` applied to row vectors, then the
translation added componentwise.  `fcos`/`fsin` stand for the external
`to_radians`/`cos`/`sin` pipeline, as functions of the angle in degrees. -/
def Transform.transform (fcos fsin : ℚ → ℚ) (t : Transform) (points : List Pt) : List Pt :=
  let points :=
    match t.sc with
    | some s => points.map (fun p => dotRow p ⟨s, 0, 0, -s⟩)
    | none => points
  let points := points.map (fun p => dotRow p (mirrorMat t.mirr))
  let rot : Mat2 := ⟨fcos t.rot, -(fsin t.rot), fsin t.rot, fcos t.rot⟩
  let points := points.map (fun p => dotRow p rot)
  points.map (fun p => ⟨t.toPt.x + p.x, t.toPt.y + p.y⟩)

/-- Applying a transform to a single point (the sources build a 1×2
ndarray and read back row 0). -/
def Transform.transform1 (fcos fsin : ℚ → ℚ) (t : Transform) (p : Pt) : Pt :=
  (t.transform fcos fsin [p]).headI

/-! ### Schema and library data model
(`src/gr.rs`, `src/schema.rs`, `src/symbols.rs`)

Only the fields read by the geometry/connectivity core are carried;
purely presentational fields (uuid, stroke, colours, fonts, …) are
omitted. -/

/-- `sexp::constants::el` is not part of the sources under `src/`.
Modelled from the spec: the symbol property keys used for net naming are
the `Reference` and `Value` properties (spec §4.4, and the doctests in
`src/schema.rs` use the literal key `"Reference"`). -/
def el.PROPERTY_REFERENCE : String := "Reference"

/-- Modelled from the spec: the `Value` symbol property key
(spec §4.4: "the net name is that symbol's `Value` property"). -/
def el.PROPERTY_VALUE : String := "Value"

/-- A symbol property (`gr::Property`); position and text effects are
omitted (unused by the modelled paths). -/
structure Property where
  key : String
  value : String
deriving DecidableEq, Repr

/-- `symbols::PinProperty` (only the name is read). -/
structure PinProperty where
  name : String
deriving DecidableEq, Repr

/-- `symbols::Pin`: a library pin in local coordinates. -/
structure Pin where
  pos : Pos
  length : ℚ
  number : PinProperty
deriving DecidableEq, Repr

/-- `schema::Symbol` (a placed instance); fields not read by the
geometry/connectivity core are omitted. -/
structure Symbol where
  lib_id : String
  pos : Pos
  mirror : Option MirrorAxis
  unit : ℕ
  props : List Property
deriving DecidableEq, Repr

/-- `str::starts_with`, written over the character list so that the
kernel can evaluate it. -/
def strStartsWith (s pre : String) : Bool :=
  pre.data.isPrefixOf s.data

/-- `Symbol::property` (`src/schema.rs` lines 431-442): concatenates the
values of all properties with a matching key (an empty string when the
key is absent). -/
def Symbol.property (s : Symbol) (key : String) : String :=
  String.join (s.props.filterMap fun p => if p.key == key then some p.value else none)

/-- Graphic items of a library symbol (`gr::GraphicItem`).  Arcs, curves
and text carry no payload here: the bbox engine skips them
(`src/math/bbox.rs` lines 218, 239, 258). -/
inductive GraphicItem where
  | arc
  | circle (center : Pt) (radius : ℚ)
  | curve
  | line (pts : List Pt)
  | polyline (pts : List Pt)
  | rectangle (rstart : Pt) (rstop : Pt)
  | text
deriving DecidableEq, Repr

/-- `symbols::LibrarySymbol`: a library symbol with its sub-units.  The
source derives the unit number by parsing the `lib_id` string
(`LibrarySymbol::unit`, `src/symbols.rs` lines 65-68); we carry the
parsed number in the `unitNo` field. -/
inductive LibrarySymbol where
  | mk (lib_id : String) (unitNo : ℕ) (graphics : List GraphicItem)
      (pins : List Pin) (units : List LibrarySymbol)

/-- The library identifier of a (sub-)symbol. -/
def LibrarySymbol.lib_id : LibrarySymbol → String
  | .mk i _ _ _ _ => i

/-- `LibrarySymbol::unit()`: 0 means shared across units. -/
def LibrarySymbol.unitNo : LibrarySymbol → ℕ
  | .mk _ u _ _ _ => u

/-- The graphic items of a (sub-)symbol. -/
def LibrarySymbol.graphics : LibrarySymbol → List GraphicItem
  | .mk _ _ g _ _ => g

/-- The pin list stored directly on a (sub-)symbol. -/
def LibrarySymbol.pinsOwn : LibrarySymbol → List Pin
  | .mk _ _ _ p _ => p

/-- The sub-units of a parent symbol. -/
def LibrarySymbol.units : LibrarySymbol → List LibrarySymbol
  | .mk _ _ _ _ u => u

/-- `LibrarySymbol::pins(unit)` (`src/symbols.rs` lines 101-111): the
pins of every sub-unit whose number is 0 (shared) or the requested one. -/
def LibrarySymbol.pins (l : LibrarySymbol) (unit : ℕ) : List Pin :=
  ((l.units.filter fun u => u.unitNo == 0 || u.unitNo == unit).map
    LibrarySymbol.pinsOwn).flatten

/-- `LibrarySymbol::pin(number)` (`src/symbols.rs` lines 77-86): the
first pin of any sub-unit with the given number. -/
def LibrarySymbol.pin (l : LibrarySymbol) (number : String) : Option Pin :=
  (l.units.map fun u => u.pinsOwn.find? fun p => p.number.name == number).findSome? id

/-- `LibrarySymbol::pin_unit(number)` (`src/symbols.rs` lines 89-98): the
unit number of the first sub-unit containing the pin. -/
def LibrarySymbol.pin_unit (l : LibrarySymbol) (number : String) : Option ℕ :=
  (l.units.map fun u =>
    (u.pinsOwn.find? fun p => p.number.name == number).map fun _ => u.unitNo).findSome? id

/-- `schema::Junction` (uuid and colour omitted). -/
structure Junction where
  pos : Pos
  diameter : ℚ
deriving DecidableEq, Repr

/-- `schema::NoConnect`. -/
structure NoConnect where
  pos : Pos
deriving DecidableEq, Repr

/-- `schema::LocalLabel` (text effects, colour, uuid omitted). -/
structure LocalLabel where
  text : String
  pos : Pos
deriving DecidableEq, Repr

/-- `schema::GlobalLabel`. -/
structure GlobalLabel where
  text : String
  pos : Pos
deriving DecidableEq, Repr

/-- `schema::Wire`: the source stores a coordinate point list
(`Pts(Vec<Pt>)`); well-formed wires have exactly two points. -/
structure Wire where
  pts : List Pt
deriving DecidableEq, Repr

/-- `schema::SchemaItem`.  The constructors not touched by the modelled
code paths (`Bus`, `BusEntry`, `HierarchicalSheet`, `HierarchicalLabel`,
`NetclassFlag`, standalone graphics, …) are collapsed into `other`; both
the netlist extractor and the wire collector skip them. -/
inductive SchemaItem where
  | symbol (s : Symbol)
  | wire (w : Wire)
  | junction (j : Junction)
  | noConnect (n : NoConnect)
  | localLabel (l : LocalLabel)
  | globalLabel (l : GlobalLabel)
  | other
deriving DecidableEq, Repr

/-- The schema document (`lib.rs` `struct Schema`); only the library
symbols and the item list feed the geometry/connectivity core. -/
structure Schema where
  library_symbols : List LibrarySymbol
  items : List SchemaItem

/-- `Schema::library_symbol` (`src/schema.rs` lines 575-582): first
library symbol with the given `lib_id`. -/
def Schema.library_symbol (s : Schema) (lib_id : String) : Option LibrarySymbol :=
  (s.library_symbols.filter fun l => l.lib_id == lib_id).head?

/-- `Schema::symbol(reference, unit)` (`src/schema.rs` lines 511-527):
first placed symbol with the given unit and `Reference` property. -/
def Schema.symbol (s : Schema) (reference : String) (unit : ℕ) : Option Symbol :=
  (s.items.filterMap fun it =>
    match it with
    | .symbol sy =>
      if unit == sy.unit && reference == sy.property el.PROPERTY_REFERENCE then some sy
      else none
    | _ => none).head?

/-- `Schema::pin_unit(reference, pin)` (`src/schema.rs` lines 541-561):
scan the placed symbols with the given reference and ask their library
symbol which unit owns the pin. -/
def Schema.pin_unit (s : Schema) (reference : String) (pin : String) : Option ℕ :=
  (s.items.filterMap fun it =>
    match it with
    | .symbol sy =>
      if reference == sy.property el.PROPERTY_REFERENCE then
        match s.library_symbol sy.lib_id with
        | some lib => lib.pin_unit pin
        | none => none
      else none
    | _ => none).head?

/-- `math::pin_position` (`src/math/mod.rs` lines 85-100): apply the
transform built from the symbol's mirror, position and angle to the pin's
local position. -/
def pin_position (fcos fsin : ℚ → ℚ) (symbol : Symbol) (pin : Pin) : Pt :=
  (((Transform.new.mirroring symbol.mirror).translation
      ⟨symbol.pos.x, symbol.pos.y⟩).rotation symbol.pos.angle).transform1 fcos fsin pin.pos.pt

/-! ### The symbolic position resolver (`src/schema_ploter.rs` lines 56-94) -/

/-- `draw::At`: a symbolic position. -/
inductive At where
  | pt (p : Pt)
  | pin (reference : String) (number : String)
  | dot (name : String)
deriving DecidableEq, Repr

/-- `Error(String, String)` from `lib.rs` line 50: a kind tag and a
message. -/
structure Error where
  kind : String
  msg : String
deriving DecidableEq, Repr

/-- The observable outcome of `Plot::get_pt for Schema`: the function's
Rust type is `fn get_pt(&self, at: &At) -> Pt`; a failed lookup is run
through `.ok_or(Error(..)).unwrap()`, which aborts the process with the
constructed error (`panicked` here), and `At::Dot` hits `todo!()`
(`todoPanic` here). -/
inductive Resolved where
  | ok (p : Pt)
  | panicked (e : Error)
  | todoPanic
deriving DecidableEq, Repr

/-- `Plot::get_pt for Schema` (`src/schema_ploter.rs` lines 58-94): the
position resolver.  Note that the result type is a plain point: every
missing-element case constructs an `Error("builder", …)` and immediately
`unwrap`s it, aborting instead of returning it. -/
def getPt (fcos fsin : ℚ → ℚ) (schema : Schema) (at_ : At) : Resolved :=
  match at_ with
  | .pt p => .ok p
  | .pin reference pin =>
    match schema.pin_unit reference pin with
    | none =>
      .panicked ⟨"builder", "pin unit not found (" ++ reference ++ ", " ++ pin ++ ")"⟩
    | some unit =>
      match schema.symbol reference unit with
      | none =>
        .panicked ⟨"builder",
          "symbol unit not found (" ++ reference ++ ", " ++ toString unit ++ ")"⟩
      | some symbol =>
        match schema.library_symbol symbol.lib_id with
        | none =>
          .panicked ⟨"builder",
            "symbol unit not found (" ++ reference ++ ", " ++ toString unit ++ ")"⟩
        | some lib =>
          match lib.pin pin with
          | none => .panicked ⟨"builder", "pin not found (" ++ pin ++ ")"⟩
          | some p => .ok (pin_position fcos fsin symbol p)
  | .dot _ => .todoPanic

/-! ### The outline engine (`src/math/bbox.rs`) -/

/-- `bbox::calculate` (`src/math/bbox.rs` lines 10-39): componentwise
min/max over the point set, `Rect::default()` (all zeroes) when the set
is empty. -/
def calculate (pts : List Pt) : Rect :=
  match pts with
  | [] => ⟨⟨0, 0⟩, ⟨0, 0⟩⟩
  | p :: rest =>
    ⟨⟨rest.foldl (fun m q => min m q.x) p.x, rest.foldl (fun m q => min m q.y) p.y⟩,
     ⟨rest.foldl (fun m q => max m q.x) p.x, rest.foldl (fun m q => max m q.y) p.y⟩⟩

/-- `gr::Justify`. -/
inductive Justify where
  | bottom
  | center
  | left
  | mirror
  | right
  | top
deriving DecidableEq, BEq, Repr

/-- `gr::Effects`, reduced to the justification flags; the font settings
are consumed only by the external text-metrics collaborator, which is
modelled by passing the measured dimensions in directly. -/
structure Effects where
  justify : List Justify
deriving DecidableEq, Repr

/-- The anchor-adjusted start point of a text box for the angles 0, 90
and 270, whose branches in `bbox::text` are identical
(`src/math/bbox.rs` lines 44-77 and 97-113).  `dim` is the measured
(width, height) pair. -/
def textStart (dim : Pt) (pos : Pos) (effects : Effects) : Pt :=
  ⟨if effects.justify.contains .right then pos.x - dim.x
    else if effects.justify.contains .left then pos.x
    else pos.x - dim.x / 2,
   if effects.justify.contains .top then pos.y
    else if effects.justify.contains .bottom then pos.y - dim.y
    else pos.y - dim.y / 2⟩

/-- The anchor-adjusted start point for the 180° branch
(`src/math/bbox.rs` lines 78-96); `dim` is the *already transformed*
dimension pair. -/
def textStart180 (dim : Pt) (pos : Pos) (effects : Effects) : Pt :=
  ⟨if effects.justify.contains .right then pos.x
    else if effects.justify.contains .left then pos.x - dim.x
    else pos.x - dim.x / 2,
   if effects.justify.contains .top then pos.y + dim.y
    else if effects.justify.contains .bottom then pos.y
    else pos.y - dim.y / 2⟩

/-- The final rectangle assembly of `bbox::text` (`src/math/bbox.rs`
lines 118-134): when either dimension is negative the rectangle is built
backwards from `start`. -/
def textFinish (start dim : Pt) : Rect :=
  if dim.x < 0 ∨ dim.y < 0 then
    ⟨⟨start.x - absQ dim.x, start.y - absQ dim.y⟩, start⟩
  else
    ⟨start, ⟨start.x + absQ dim.x, start.y + absQ dim.y⟩⟩

/-- The outcome of `bbox::text`: `Ok(rect)`, or the process abort
`panic!("unsupported angle {}", pos.angle)`. -/
inductive TextResult where
  | ok (r : Rect)
  | panicked (msg : String)
deriving DecidableEq, Repr

/-- `bbox::text` (`src/math/bbox.rs` lines 41-135) with the measured
dimensions `dim0` supplied by the caller (the source obtains them from
the external `fonts::dimension` collaborator).  Only the exact angles 0,
90, 180 and 270 are supported; in the 180° case the dimensions are first
run through a rotation `Transform` (which also applies the default
Y-flipping mirror matrix) before the start point and rectangle are
built.  Any other angle is a fatal abort. -/
def textBBox (fcos fsin : ℚ → ℚ) (dim0 : Pt) (pos : Pos) (effects : Effects) : TextResult :=
  if pos.angle = 0 then
    .ok (textFinish (textStart dim0 pos effects) dim0)
  else if pos.angle = 90 then
    .ok (textFinish (textStart dim0 pos effects) dim0)
  else if pos.angle = 180 then
    let dim := (Transform.new.rotation pos.angle).transform1 fcos fsin dim0
    .ok (textFinish (textStart180 dim pos effects) dim)
  else if pos.angle = 270 then
    .ok (textFinish (textStart dim0 pos effects) dim0)
  else
    .panicked ("unsupported angle " ++ toString pos.angle)

/-- The points a single graphic item contributes to a symbol outline
(`src/math/bbox.rs` lines 216-259): circles contribute the two corners
of their bounding square, lines/polylines every vertex, rectangles both
corners, each mapped through the symbol's transform; arcs, curves and
text are unimplemented stubs contributing nothing. -/
def graphicPts (fcos fsin : ℚ → ℚ) (t : Transform) : GraphicItem → List Pt
  | .arc => []
  | .circle center radius =>
    [t.transform1 fcos fsin ⟨center.x - radius, center.y - radius⟩,
     t.transform1 fcos fsin ⟨center.x + radius, center.y + radius⟩]
  | .curve => []
  | .line pts => pts.map (t.transform1 fcos fsin)
  | .polyline pts => pts.map (t.transform1 fcos fsin)
  | .rectangle rstart rstop =>
    [t.transform1 fcos fsin rstart, t.transform1 fcos fsin rstop]
  | .text => []

/-- The point set collected by `impl Bbox for Symbol`
(`src/math/bbox.rs` lines 205-266): graphics of the shared unit 0 and of
the placed unit, transformed by the symbol placement, plus every active
pin position. -/
def symbolPts (fcos fsin : ℚ → ℚ) (lib : LibrarySymbol) (sym : Symbol) : List Pt :=
  let t := ((Transform.new.translation ⟨sym.pos.x, sym.pos.y⟩).rotation
      sym.pos.angle).mirroring sym.mirror
  ((lib.units.filter fun u => u.unitNo == 0 || u.unitNo == sym.unit).map
      (fun u => (u.graphics.map (graphicPts fcos fsin t)).flatten)).flatten
    ++ (lib.pins sym.unit).map (pin_position fcos fsin sym)

/-- `impl Bbox for Symbol` (`src/math/bbox.rs` lines 202-273): the
bounding box of the collected points.  The source `unwrap`s the library
lookup; a missing library symbol aborts, modelled by `none`. -/
def Symbol.outline (fcos fsin : ℚ → ℚ) (schema : Schema) (sym : Symbol) : Option Rect :=
  (schema.library_symbol sym.lib_id).map fun lib =>
    calculate (symbolPts fcos fsin lib sym)

/-! ### The netlist extractor (`src/netlist.rs`) -/

/-- `netlist::NodePositions`: a connection node recorded at a point. -/
inductive Node where
  | pin (pos : Pt) (p : Pin) (symbol : Symbol)
  | label (pos : Pt) (l : LocalLabel)
  | globalLabel (pos : Pt) (l : GlobalLabel)
  | noConnect (pos : Pt)
  | junction (pos : Pt)
deriving DecidableEq, Repr

/-- The point a node was recorded at. -/
def Node.pos : Node → Pt
  | .pin p _ _ => p
  | .label p _ => p
  | .globalLabel p _ => p
  | .noConnect p => p
  | .junction p => p

/-- One item of `Netlist::collect_points` (`src/netlist.rs` lines
38-87): record a connection node for every active pin of a
non-`Mechanical:` symbol (at its resolved position) and for every
no-connect, junction and local/global label (at its own position). -/
def collectStep (fcos fsin : ℚ → ℚ) (schema : Schema)
    (positions : PtMap (List Node)) (item : SchemaItem) : PtMap (List Node) :=
  match item with
  | .symbol symbol =>
    if strStartsWith symbol.lib_id "Mechanical:" then positions
    else
      match schema.library_symbol symbol.lib_id with
      | none => positions
      | some l =>
        (l.pins symbol.unit).foldl
          (fun ps p =>
            pushEntry ps (pin_position fcos fsin symbol p)
              (Node.pin (pin_position fcos fsin symbol p) p symbol))
          positions
  | .noConnect nc => pushEntry positions nc.pos.pt (Node.noConnect nc.pos.pt)
  | .junction j => pushEntry positions j.pos.pt (Node.junction j.pos.pt)
  | .localLabel l => pushEntry positions l.pos.pt (Node.label l.pos.pt l)
  | .globalLabel l => pushEntry positions l.pos.pt (Node.globalLabel l.pos.pt l)
  | _ => positions

/-- `Netlist::collect_points` (`src/netlist.rs` lines 35-90). -/
def collect_points (fcos fsin : ℚ → ℚ) (schema : Schema) : PtMap (List Node) :=
  schema.items.foldl (collectStep fcos fsin schema) []

/-- One wire's contribution to the adjacency map
(`src/netlist.rs` lines 106-111): insert both directed edges.  The
source indexes `pts[0]`/`pts[1]` (and would abort on a wire with fewer
than two points); `getD` stands in for the index, and the claims only
concern two-point wires. -/
def wireStep (m : PtMap (List Pt)) (w : Wire) : PtMap (List Pt) :=
  pushEntry (pushEntry m (w.pts.getD 0 default) (w.pts.getD 1 default))
    (w.pts.getD 1 default) (w.pts.getD 0 default)

/-- `Netlist::wires` (`src/netlist.rs` lines 97-113): both directed
edges of every wire, keyed by the quantised endpoint. -/
def wiresMap (schema : Schema) : PtMap (List Pt) :=
  (schema.items.filterMap fun it =>
    match it with
    | .wire w => some w
    | _ => none).foldl wireStep []

/-- `Netlist::get_wire` (`src/netlist.rs` lines 115-128): push the point
onto the visited list and return its not-yet-visited neighbours (or
`none` when the point is not a wire endpoint). -/
def get_wire (pt : Pt) (wires : PtMap (List Pt)) (visited : List Pt) :
    Option (List Pt) × List Pt :=
  let visited := visited ++ [pt]
  match lookupPt wires pt with
  | none => (none, visited)
  | some ns => (some (ns.filter fun p => !(memPt visited p)), visited)

/-- The loop body of `Netlist::seek_wire`: process the neighbour list in
order, pushing each neighbour and everything its recursive search finds.
`f` is the recursive search at the next fuel level. -/
def seek_step (f : Pt → List Pt → List Pt × List Pt) :
    List Pt → List Pt → List Pt × List Pt
  | [], visited => ([], visited)
  | w :: ws, visited =>
    let fw := f w visited
    let fs := seek_step f ws fw.2
    (w :: (fw.1 ++ fs.1), fs.2)

/-- `Netlist::seek_wire` (`src/netlist.rs` lines 130-139): depth-first
search over the wire graph, threading the shared visited list.  The Rust
recursion terminates because every call pushes its argument onto the
visited list; the explicit `fuel` makes the recursion structural, and
`netlist_from` passes a fuel bound large enough that it is never
exhausted. -/
def seek_wire (wires : PtMap (List Pt)) : ℕ → Pt → List Pt → List Pt × List Pt
  | fuel, pt, visited =>
    match get_wire pt wires visited with
    | (none, v) => ([], v)
    | (some ns, v) =>
      match fuel with
      | 0 => ([], v)
      | n + 1 => seek_step (fun w vis => seek_wire wires n w vis) ns v

/-- A fuel bound that the depth-first search can never exhaust: the
recursion depth is bounded by the number of points that can be newly
visited, which the total size of the adjacency map dominates. -/
def seekFuel (wires : PtMap (List Pt)) : ℕ :=
  (wires.map fun e => e.2.length).sum + wires.length + 1

/-- The merge loop inside `Netlist::from` (`src/netlist.rs` lines
207-214): for every point the search reached that carries connection
nodes, append those nodes to the group and mark the point visited. -/
def merge_nodes (positions : PtMap (List Node)) :
    List Pt → List Node × List Pt → List Node × List Pt
  | [], acc => acc
  | w :: ws, acc =>
    match lookupPt positions w with
    | some other => merge_nodes positions ws (acc.1 ++ other, acc.2 ++ [w])
    | none => merge_nodes positions ws acc

/-- One iteration of the grouping loop of `Netlist::from`
(`src/netlist.rs` lines 203-217): skip seeds already merged into an
earlier group; otherwise run the wire search from the seed and union the
connection nodes of every reached coordinate into the seed's group.
The accumulator carries (groups so far, visited positions, visited wire
points). -/
def from_step (positions : PtMap (List Node)) (wires : PtMap (List Pt)) (fuel : ℕ)
    (acc : PtMap (List Node) × List Pt × List Pt) (entry : Pt × List Node) :
    PtMap (List Node) × List Pt × List Pt :=
  if memPt acc.2.1 entry.1 then acc
  else
    let visitedP := acc.2.1 ++ [entry.1]
    let sw := seek_wire wires fuel entry.1 acc.2.2
    let merged := merge_nodes positions sw.1 (entry.2, visitedP)
    (insertPt acc.1 entry.1 merged.1, merged.2, sw.2)

/-- The running state of the per-group loop in
`Netlist::generate_names` (`src/netlist.rs` lines 143-181). -/
structure NameState where
  name : String
  label : Option String
  positions : List Pt
  first : Bool
deriving DecidableEq, Repr

/-- One item of the naming loop (`src/netlist.rs` lines 148-180): every
node pushes its position; a pin of a `power:` symbol overwrites the
label with the symbol's `Value`, any label overwrites it with its text,
and the remaining pins accumulate `"{reference}_{pin}"` into the
synthesized name, separated by `"__"` after the first. -/
def nameStep (st : NameState) (it : Node) : NameState :=
  match it with
  | .pin pos p symbol =>
    if strStartsWith symbol.lib_id "power:" then
      { st with positions := st.positions ++ [pos],
                label := some (symbol.property el.PROPERTY_VALUE) }
    else if st.first then
      { st with positions := st.positions ++ [pos], first := false,
                name := st.name ++ symbol.property el.PROPERTY_REFERENCE
                  ++ "_" ++ p.number.name }
    else
      { st with positions := st.positions ++ [pos],
                name := st.name ++ "__" ++ symbol.property el.PROPERTY_REFERENCE
                  ++ "_" ++ p.number.name }
  | .label pos l =>
    { st with positions := st.positions ++ [pos], label := some l.text }
  | .globalLabel pos l =>
    { st with positions := st.positions ++ [pos], label := some l.text }
  | .noConnect pos => { st with positions := st.positions ++ [pos] }
  | .junction pos => { st with positions := st.positions ++ [pos] }

/-- The name a group receives (`src/netlist.rs` lines 183-191): the last
label recorded while walking the items, or the synthesized name when no
label was seen. -/
def groupValue (items : List Node) : String :=
  let st := items.foldl nameStep ⟨"", none, [], true⟩
  st.label.getD st.name

/-- One group of the naming loop of `Netlist::generate_names`: compute
the group's state (name, label, positions) and record the resulting name
against every collected position. -/
def gnStep (names : PtMap String) (entry : Pt × List Node) : PtMap String :=
  let st := entry.2.foldl nameStep ⟨"", none, [entry.1], true⟩
  st.positions.foldl (fun ns p => insertPt ns p (st.label.getD st.name)) names

/-- `Netlist::generate_names` (`src/netlist.rs` lines 141-194): walk
every group, compute its name, and record it against the group key and
every node position of the group. -/
def generate_names (results : PtMap (List Node)) : PtMap String :=
  results.foldl gnStep []

/-- The `Netlist` record (`src/netlist.rs` lines 29-32). -/
structure Netlist where
  node_positions : PtMap (List Node)
  names : PtMap String
deriving DecidableEq, Repr

/-- `Netlist::netname` (`src/netlist.rs` lines 225-227). -/
def Netlist.netname (n : Netlist) (pt : Pt) : Option String :=
  lookupPt n.names pt

/-- The merged groups `final_positions` computed by `Netlist::from`
(`src/netlist.rs` lines 200-217): fold the grouping step over the
connection points. -/
def netlistGroups (fcos fsin : ℚ → ℚ) (schema : Schema) : PtMap (List Node) :=
  ((collect_points fcos fsin schema).foldl
    (from_step (collect_points fcos fsin schema) (wiresMap schema)
      (seekFuel (wiresMap schema))) ([], [], [])).1

/-- `Netlist::from` (`src/netlist.rs` lines 196-223): build the wire
graph and the connection points, merge wire-connected connection points
into groups, and name the groups.  The only `return` in the source is
the final `Ok(...)`; the `Err` branch of the result type is never
produced. -/
def netlist_from (fcos fsin : ℚ → ℚ) (schema : Schema) : Except Error Netlist :=
  Except.ok { node_positions := netlistGroups fcos fsin schema,
              names := generate_names (netlistGroups fcos fsin schema) }

/-- One wire's contribution to the adjacency map with the
`w.pts.0[0]`/`w.pts.0[1]` indexing modelled exactly: `none` is the
out-of-bounds panic (a process abort) on a wire with fewer than two
points. -/
def wireStepP (m : PtMap (List Pt)) (w : Wire) : Option (PtMap (List Pt)) :=
  match w.pts.get? 0, w.pts.get? 1 with
  | some pt0, some pt1 => some (pushEntry (pushEntry m pt0 pt1) pt1 pt0)
  | _, _ => none

/-- `Netlist::wires` with the index panic made explicit. -/
def wiresMapP (schema : Schema) : Option (PtMap (List Pt)) :=
  (schema.items.filterMap fun it =>
    match it with
    | .wire w => some w
    | _ => none).foldl (fun acc w => acc.bind fun m => wireStepP m w) (some [])

/-- `Netlist::from` with the abort channel of `Netlist::wires` made
explicit: `none` is the index panic on a malformed wire; every later
pass (connection points, traversal, merging, naming) is total, and the
function's only normal return is the final `Ok`. -/
def netlist_fromP (fcos fsin : ℚ → ℚ) (schema : Schema) :
    Option (Except Error Netlist) :=
  (wiresMapP schema).map fun wires =>
    Except.ok
      { node_positions := ((collect_points fcos fsin schema).foldl
          (from_step (collect_points fcos fsin schema) wires (seekFuel wires))
          ([], [], [])).1,
        names := generate_names (((collect_points fcos fsin schema).foldl
          (from_step (collect_points fcos fsin schema) wires (seekFuel wires))
          ([], [], [])).1) }

/-- The coordinates a group's name is recorded against: the seed key and
every node position of the group (the `positions` vector of
`generate_names`). -/
def groupCoords (k : Pt) (items : List Node) : List Pt :=
  k :: items.map Node.pos

/-- Invariant of the connection-point map: every recorded node sits at
(a quantised equal of) its map key. -/
def NodesOK (m : PtMap (List Node)) : Prop :=
  ∀ e ∈ m, ∀ x ∈ e.2, ptEq (Node.pos x) e.1 = true

/-- Pairwise disjointness (up to the quantised equality) of the
coordinate sets of the merged groups. -/
def GroupsDisjoint (gs : PtMap (List Node)) : Prop :=
  List.Pairwise
    (fun e1 e2 =>
      ∀ a ∈ groupCoords e1.1 e1.2, ∀ b ∈ groupCoords e2.1 e2.2, ptEq a b = false)
    gs

/-- Invariant of the grouping loop of `Netlist::from`: every coordinate
of every finished group is recorded in both visited lists, and the
groups are pairwise disjoint. -/
def FromInv (acc : PtMap (List Node) × List Pt × List Pt) : Prop :=
  (∀ e ∈ acc.1, ∀ a ∈ groupCoords e.1 e.2,
      memPt acc.2.1 a = true ∧ memPt acc.2.2 a = true) ∧
    GroupsDisjoint acc.1

/-! ### Spec-side definitions

These follow the *words* of the specification and the claims, for
comparison against the source-derived functions above. -/

/-- Spec-side: the label a node contributes to net naming, per spec
§4.4: a pin of a `power:`-prefixed symbol contributes the symbol's
`Value` property, a local or global label contributes its text. -/
def labelOf : Node → Option String
  | .pin _ _ symbol =>
    if strStartsWith symbol.lib_id "power:" then some (symbol.property el.PROPERTY_VALUE)
    else none
  | .label _ l => some l.text
  | .globalLabel _ l => some l.text
  | _ => none

/-- Spec-side: the label of the last label-contributing member of a
group, in encounter order. -/
def lastLabel (items : List Node) : Option String :=
  items.foldl
    (fun acc n =>
      match labelOf n with
      | some s => some s
      | none => acc)
    none

/-- Spec-side: the `"{reference}_{pin_number}"` fragment a node
contributes to a synthesized net name (pins of `power:` symbols
contribute none). -/
def pinName : Node → Option String
  | .pin _ p symbol =>
    if strStartsWith symbol.lib_id "power:" then none
    else some (symbol.property el.PROPERTY_REFERENCE ++ "_" ++ p.number.name)
  | _ => none

/-- Spec-side: concatenation "joined by `__` for all but the first". -/
def joinSep : List String → String
  | [] => ""
  | x :: xs => x ++ String.join (xs.map fun y => "__" ++ y)

/-- Spec-side: the synthesized fallback net name of a group. -/
def synthName (items : List Node) : String :=
  joinSep (items.filterMap pinName)

/-- Spec-side (claim C5): the mirror map selected by the symbol's mirror
axis, with the no-mirror case the Y-flipping matrix `[[1,0],[0,-1]]`. -/
def mirrorApply : Option MirrorAxis → Pt → Pt
  | none, p => ⟨p.x, -p.y⟩
  | some .x, p => ⟨p.x, p.y⟩
  | some .y, p => ⟨-p.x, -p.y⟩
  | some .xy, p => ⟨-p.x, p.y⟩

/-- Spec-side (claim C5): rotation of a row vector by the angle in
degrees, in the source's row-vector convention
`[x, y] ⬝ [[cos θ, -sin θ], [sin θ, cos θ]]`. -/
def rotateBy (fcos fsin : ℚ → ℚ) (deg : ℚ) (p : Pt) : Pt :=
  ⟨p.x * fcos deg + p.y * fsin deg, -(p.x * fsin deg) + p.y * fcos deg⟩

/-- Spec-side (claim C5): translation by the symbol position. -/
def translateBy (q : Pt) (p : Pt) : Pt :=
  ⟨q.x + p.x, q.y + p.y⟩

/-! ### Concrete fixtures used to evaluate the embedding -/

/-- A trig collaborator with the exact `f32` values at 0°:
`cos 0 = 1`. -/
def trigC : ℚ → ℚ := fun _ => 1

/-- A trig collaborator with the exact `f32` values at 0°:
`sin 0 = 0`. -/
def trigS : ℚ → ℚ := fun _ => 0

/-- A schema with no items and no libraries. -/
def emptySchema : Schema := ⟨[], []⟩

/-- A label at the origin and two wires chaining on from it; the wire
bend point `(1,0)` and far end `(2,0)` carry no connection nodes. -/
def labelWireSchema : Schema :=
  ⟨[],
   [SchemaItem.localLabel ⟨"A", ⟨0, 0, 0⟩⟩,
    SchemaItem.wire ⟨[⟨0, 0⟩, ⟨1, 0⟩]⟩,
    SchemaItem.wire ⟨[⟨1, 0⟩, ⟨2, 0⟩]⟩]⟩

/-- A schema holding a single junction at the origin. -/
def junctionSchema : Schema :=
  ⟨[], [SchemaItem.junction ⟨⟨0, 0, 0⟩, 0⟩]⟩

/-- A schema holding a single two-point wire. -/
def oneWireSchema : Schema :=
  ⟨[], [SchemaItem.wire ⟨[⟨0, 0⟩, ⟨1, 0⟩]⟩]⟩

/-- A schema holding a malformed wire with a single point; the
`pts[1]` index in `Netlist::wires` aborts on it. -/
def shortWireSchema : Schema :=
  ⟨[], [SchemaItem.wire ⟨[⟨0, 0⟩]⟩]⟩

/-- A library symbol with no sub-units (hence no graphics and no pins
for any unit) and a placement of it. -/
def bareLib : LibrarySymbol := .mk "Device:Bare" 0 [] [] []

/-- A placement of `bareLib`. -/
def bareSymbol : Symbol := ⟨"Device:Bare", ⟨0, 0, 0⟩, none, 1, []⟩

/-- A schema containing only the bare symbol. -/
def bareSchema : Schema := ⟨[bareLib], [SchemaItem.symbol bareSymbol]⟩

/-- A power symbol whose `Value` is `"VCC"`. -/
def powerSymbol : Symbol :=
  ⟨"power:VCC", ⟨0, 0, 0⟩, none, 1,
   [⟨el.PROPERTY_REFERENCE, "#PWR01"⟩, ⟨el.PROPERTY_VALUE, "VCC"⟩]⟩

/-- A group that contains a power pin followed by a local label: the
claimed power-first naming priority would pick `"VCC"`, the code's
last-label-wins rule picks `"X"`. -/
def powerThenLabelItems : List Node :=
  [Node.pin ⟨0, 0⟩ ⟨⟨0, 0, 0⟩, 254/100, ⟨"1"⟩⟩ powerSymbol,
   Node.label ⟨0, 0⟩ ⟨"X", ⟨0, 0, 0⟩⟩]

/-- The netlist the extractor computes for `junctionSchema`. -/
def junctionNetlist : Netlist :=
  ((netlist_from trigC trigS junctionSchema).toOption).getD ⟨[], []⟩

/-! ## Theorems

First the basic lemmas about the quantised point equality and the
association-list maps, then the claim theorems. -/

theorem ptEq_iff {a b : Pt} :
    ptEq a b = true ↔ fmt2 a.x = fmt2 b.x ∧ fmt2 a.y = fmt2 b.y := by
  simp [ptEq]

theorem ptEq_refl (a : Pt) : ptEq a a = true := by
  simp [ptEq]

theorem ptEq_symm {a b : Pt} : ptEq a b = ptEq b a := by
  by_cases h : ptEq a b = true
  · obtain ⟨h1, h2⟩ := ptEq_iff.mp h
    rw [h, Eq.symm (ptEq_iff.mpr ⟨h1.symm, h2.symm⟩)]
  · by_cases h2 : ptEq b a = true
    · obtain ⟨h3, h4⟩ := ptEq_iff.mp h2
      exact absurd (ptEq_iff.mpr ⟨h3.symm, h4.symm⟩) h
    · rw [Bool.not_eq_true] at h h2
      rw [h, h2]

theorem ptEq_trans {a b c : Pt} (h1 : ptEq a b = true) (h2 : ptEq b c = true) :
    ptEq a c = true := by
  obtain ⟨x1, y1⟩ := ptEq_iff.mp h1
  obtain ⟨x2, y2⟩ := ptEq_iff.mp h2
  exact ptEq_iff.mpr ⟨x1.trans x2, y1.trans y2⟩

theorem ptEq_false_of_left {a b c : Pt} (hab : ptEq a b = true)
    (h : ptEq a c = false) : ptEq b c = false := by
  cases hbc : ptEq b c
  · rfl
  · rw [ptEq_trans hab hbc] at h
    exact h

theorem memPt_cons {q p : Pt} {l : List Pt} :
    memPt (q :: l) p = (ptEq q p || memPt l p) := by
  simp [memPt]

theorem memPt_append {l t : List Pt} {p : Pt} :
    memPt (l ++ t) p = (memPt l p || memPt t p) := by
  simp [memPt, List.any_append]

theorem memPt_of_mem {l : List Pt} {p : Pt} (h : p ∈ l) : memPt l p = true := by
  simp only [memPt, List.any_eq_true]
  exact ⟨p, h, ptEq_refl p⟩

theorem ptEq_congr_right {r p q : Pt} (h : ptEq p q = true) :
    ptEq r p = ptEq r q := by
  by_cases hrp : ptEq r p = true
  · rw [hrp, ptEq_trans hrp h]
  · by_cases hrq : ptEq r q = true
    · have hqp : ptEq q p = true := by rw [ptEq_symm]; exact h
      exact absurd (ptEq_trans hrq hqp) hrp
    · rw [Bool.not_eq_true] at hrp hrq
      rw [hrp, hrq]

theorem memPt_congr {l : List Pt} {p q : Pt} (h : ptEq p q = true) :
    memPt l p = memPt l q := by
  induction l with
  | nil => rfl
  | cons r rest ih =>
    rw [memPt_cons, memPt_cons, ih, ptEq_congr_right h]

theorem memPt_mono {l t : List Pt} {p : Pt} (h : memPt l p = true) :
    memPt (l ++ t) p = true := by
  rw [memPt_append, h, Bool.true_or]

theorem memPt_false_of_append {l t : List Pt} {p : Pt}
    (h : memPt (l ++ t) p = false) : memPt l p = false := by
  rw [memPt_append, Bool.or_eq_false_iff] at h
  exact h.1

theorem ptEq_congr_left {p q r : Pt} (h : ptEq p q = true) :
    ptEq p r = ptEq q r := by
  rw [@ptEq_symm p r, @ptEq_symm q r]
  exact ptEq_congr_right h

theorem lookupPt_congr {α : Type} (m : PtMap α) {p q : Pt} (h : ptEq p q = true) :
    lookupPt m p = lookupPt m q := by
  induction m with
  | nil => rfl
  | cons e rest ih =>
    obtain ⟨k, v⟩ := e
    simp only [lookupPt]
    rw [ptEq_congr_right h, ih]

theorem lookupPt_insertPt {α : Type} (m : PtMap α) (p : Pt) (v : α) (q : Pt) :
    lookupPt (insertPt m p v) q =
      if ptEq p q = true then some v else lookupPt m q := by
  induction m with
  | nil => simp [insertPt, lookupPt]
  | cons e rest ih =>
    obtain ⟨k, w⟩ := e
    by_cases hkp : ptEq k p = true
    · simp only [insertPt, hkp, if_true, lookupPt]
      by_cases hpq : ptEq p q = true
      · rw [ptEq_trans hkp hpq]
        simp [hpq]
      · have hkq : ptEq k q = false := by
          rw [ptEq_congr_left hkp, ← Bool.not_eq_true]
          exact hpq
        simp [hkq, hpq]
    · simp only [insertPt, hkp, if_false, lookupPt]
      by_cases hkq : ptEq k q = true
      · have hpq : ptEq p q = false := by
          cases hc : ptEq p q
          · rfl
          · have hqp : ptEq q p = true := by rw [ptEq_symm]; exact hc
            exact absurd (ptEq_trans hkq hqp) hkp
        simp [hkq, hpq]
      · simp only [hkq, if_false]
        rw [ih]
        simp [hkq]

theorem lookupPt_pushEntry {α : Type} (m : PtMap (List α)) (p : Pt) (v : α) (q : Pt) :
    lookupPt (pushEntry m p v) q =
      if ptEq p q = true then some ((lookupPt m q).getD [] ++ [v])
      else lookupPt m q := by
  induction m with
  | nil => simp [pushEntry, lookupPt]
  | cons e rest ih =>
    obtain ⟨k, l⟩ := e
    by_cases hkp : ptEq k p = true
    · simp only [pushEntry, hkp, if_true, lookupPt]
      by_cases hpq : ptEq p q = true
      · rw [ptEq_trans hkp hpq]
        simp [hpq, ptEq_trans hkp hpq]
      · have hkq : ptEq k q = false := by
          rw [ptEq_congr_left hkp, ← Bool.not_eq_true]
          exact hpq
        simp [hkq, hpq]
    · simp only [pushEntry, hkp, if_false, lookupPt]
      by_cases hkq : ptEq k q = true
      · have hpq : ptEq p q = false := by
          cases hc : ptEq p q
          · rfl
          · have hqp : ptEq q p = true := by rw [ptEq_symm]; exact hc
            exact absurd (ptEq_trans hkq hqp) hkp
        simp [hkq, hpq]
      · simp only [hkq, if_false]
        rw [ih]
        simp [hkq]

theorem lookupPt_eq_none {α : Type} {m : PtMap α} {p : Pt} :
    lookupPt m p = none ↔ ∀ e ∈ m, ptEq e.1 p = false := by
  induction m with
  | nil => simp [lookupPt]
  | cons e rest ih =>
    obtain ⟨k, v⟩ := e
    by_cases hkp : ptEq k p = true
    · simp [lookupPt, hkp]
    · rw [Bool.not_eq_true] at hkp
      simp [lookupPt, hkp, ih]

theorem lookupPt_mem {α : Type} {m : PtMap α} {p : Pt} {v : α}
    (h : lookupPt m p = some v) : ∃ k, (k, v) ∈ m ∧ ptEq k p = true := by
  induction m with
  | nil => simp [lookupPt] at h
  | cons e rest ih =>
    obtain ⟨k, w⟩ := e
    by_cases hkp : ptEq k p = true
    · simp only [lookupPt, hkp, if_true, Option.some.injEq] at h
      exact ⟨k, by simp [h], hkp⟩
    · simp only [lookupPt, hkp, if_false] at h
      obtain ⟨k2, hmem, heq⟩ := ih h
      exact ⟨k2, by simp [hmem], heq⟩

theorem insertPt_of_absent {α : Type} {m : PtMap α} {p : Pt} (v : α)
    (h : lookupPt m p = none) : insertPt m p v = m ++ [(p, v)] := by
  induction m with
  | nil => simp [insertPt]
  | cons e rest ih =>
    obtain ⟨k, w⟩ := e
    have hk : ptEq k p = false := lookupPt_eq_none.mp h (k, w) (by simp)
    have hrest : lookupPt rest p = none := by
      rw [lookupPt_eq_none]
      intro e he
      exact lookupPt_eq_none.mp h e (by simp [he])
    simp [insertPt, hk, ih hrest]

/-- C1 (counterexample): the claimed tolerance property fails.  The
points `(0.004, 0)` and `(0.006, 0)` are within `0.005` of each other in
both axes, yet they format to `"0.00x0.00"` and `"0.01x0.00"`, so the
quantised equality of `src/gr.rs` separates them and their hashes
differ.  (The same holds for the `f32` values `0.004f32`/`0.006f32`,
whose exact values round to the same two-decimal strings.) -/
theorem pt_quantization_counterexample :
    |(Pt.mk (Rat.divInt 4 1000) 0).x - (Pt.mk (Rat.divInt 6 1000) 0).x|
        < Rat.divInt 5 1000 ∧
      |(Pt.mk (Rat.divInt 4 1000) 0).y - (Pt.mk (Rat.divInt 6 1000) 0).y|
        < Rat.divInt 5 1000 ∧
      ptEq (Pt.mk (Rat.divInt 4 1000) 0) (Pt.mk (Rat.divInt 6 1000) 0) = false ∧
      ptHash (Pt.mk (Rat.divInt 4 1000) 0) ≠ ptHash (Pt.mk (Rat.divInt 6 1000) 0) := by
  refine ⟨by norm_num [Rat.divInt_eq_div, abs_lt], by norm_num [Rat.divInt_eq_div, abs_lt],
    by decide, by decide⟩

/-- C1 (amended): two points whose coordinates format to the same two
decimal places (rather than: lie within `0.005` of each other) are equal
under the quantised `Pt` equality and have equal hashes. -/
theorem pt_quantization (a b : Pt) (hx : fmt2 a.x = fmt2 b.x)
    (hy : fmt2 a.y = fmt2 b.y) : ptEq a b = true ∧ ptHash a = ptHash b := by
  refine ⟨ptEq_iff.mpr ⟨hx, hy⟩, ?_⟩
  simp [ptHash, hx, hy]

/-- Witness for `pt_quantization`: `0.101` and `0.099` both format to
`"0.10"`. -/
theorem pt_quantization_witness :
    fmt2 (Pt.mk (Rat.divInt 101 1000) 2).x = fmt2 (Pt.mk (Rat.divInt 99 1000) 2).x ∧
      fmt2 (Pt.mk (Rat.divInt 101 1000) 2).y = fmt2 (Pt.mk (Rat.divInt 99 1000) 2).y ∧
      (ptEq (Pt.mk (Rat.divInt 101 1000) 2) (Pt.mk (Rat.divInt 99 1000) 2) = true ∧
        ptHash (Pt.mk (Rat.divInt 101 1000) 2) = ptHash (Pt.mk (Rat.divInt 99 1000) 2)) :=
  ⟨by decide, by decide, pt_quantization _ _ (by decide) (by decide)⟩

theorem dotRow_mirrorMat (m : Option MirrorAxis) (p : Pt) :
    dotRow p (mirrorMat m) = mirrorApply m p := by
  cases m with
  | none =>
    simp only [dotRow, mirrorMat, mirrorApply, Pt.mk.injEq]
    constructor <;> ring
  | some ax =>
    cases ax <;>
      (simp only [dotRow, mirrorMat, mirrorApply, Pt.mk.injEq]
       constructor <;> ring)

/-- C5: the resolved absolute pin position is the pin's local position
mapped by the mirror matrix selected by the symbol's mirror setting (the
no-mirror case being the Y-flipping matrix `[[1,0],[0,-1]]`), then
rotated by the symbol's angle, then translated by the symbol position —
even though `pin_position` configures the builder in the order
mirror → translation → rotation, the pipeline applies
mirror → rotate → translate. -/
theorem pin_position_formula (fcos fsin : ℚ → ℚ) (sym : Symbol) (pin : Pin) :
    pin_position fcos fsin sym pin =
      translateBy ⟨sym.pos.x, sym.pos.y⟩
        (rotateBy fcos fsin sym.pos.angle (mirrorApply sym.mirror pin.pos.pt)) := by
  rcases hm : sym.mirror with _ | ax
  · simp only [pin_position, Transform.transform1, Transform.transform,
      Transform.mirroring, Transform.translation, Transform.rotation, Transform.new,
      List.map, List.headI, hm, mirrorMat, mirrorApply, rotateBy, translateBy,
      dotRow, Pt.mk.injEq]
    constructor <;> ring
  · cases ax <;>
      (simp only [pin_position, Transform.transform1, Transform.transform,
        Transform.mirroring, Transform.translation, Transform.rotation, Transform.new,
        List.map, List.headI, hm, mirrorMat, mirrorApply, rotateBy, translateBy,
        dotRow, Pt.mk.injEq]
       constructor <;> ring)

/-- C6: a default `Transform` (no scale, no explicit mirror, zero
rotation, zero translation) is not the identity: it maps every point
`(x, y)` to `(x, -y)`; in particular `[(2,3),(4,5),(6,7)]` maps to
`[(2,-3),(4,-5),(6,-7)]`.  The hypotheses are the exact `f32` values of
`cos`/`sin` at angle 0. -/
theorem transform_default_flips_y (fcos fsin : ℚ → ℚ) (hc : fcos 0 = 1)
    (hs : fsin 0 = 0) :
    (∀ pts : List Pt,
        Transform.new.transform fcos fsin pts = pts.map fun p => ⟨p.x, -p.y⟩) ∧
      Transform.new.transform fcos fsin [⟨2, 3⟩, ⟨4, 5⟩, ⟨6, 7⟩]
        = [⟨2, -3⟩, ⟨4, -5⟩, ⟨6, -7⟩] := by
  have h : ∀ pts : List Pt,
      Transform.new.transform fcos fsin pts = pts.map fun p => ⟨p.x, -p.y⟩ := by
    intro pts
    simp only [Transform.transform, Transform.new, List.map_map]
    refine List.map_congr_left fun p _ => ?_
    simp only [Function.comp, dotRow, mirrorMat, hc, hs, Pt.mk.injEq]
    constructor <;> ring
  refine ⟨h, ?_⟩
  rw [h]
  decide

/-- Witness for `transform_default_flips_y`, with a trig collaborator
satisfying `cos 0 = 1` and `sin 0 = 0`. -/
theorem transform_default_flips_y_witness :
    trigC 0 = 1 ∧ trigS 0 = 0 ∧
      Transform.new.transform trigC trigS [⟨2, 3⟩, ⟨4, 5⟩, ⟨6, 7⟩]
        = [⟨2, -3⟩, ⟨4, -5⟩, ⟨6, -7⟩] :=
  ⟨rfl, rfl, (transform_default_flips_y trigC trigS rfl rfl).2⟩

theorem lookupPt_pushEntry_preserves {α : Type} {m : PtMap (List α)} {q : Pt}
    {l : List α} (h : lookupPt m q = some l) (p : Pt) (v : α) :
    ∃ l2, lookupPt (pushEntry m p v) q = some l2 ∧ ∀ x ∈ l, x ∈ l2 := by
  rw [lookupPt_pushEntry]
  by_cases hpq : ptEq p q = true
  · refine ⟨l ++ [v], by simp [hpq, h], fun x hx => by simp [hx]⟩
  · rw [Bool.not_eq_true] at hpq
    exact ⟨l, by simp [hpq, h], fun x hx => hx⟩

theorem wireStep_preserves {m : PtMap (List Pt)} {x y : Pt} {l : List Pt}
    (h : lookupPt m x = some l) (hy : y ∈ l) (w : Wire) :
    ∃ l2, lookupPt (wireStep m w) x = some l2 ∧ y ∈ l2 := by
  obtain ⟨l1, h1, hsub1⟩ := lookupPt_pushEntry_preserves h (w.pts.getD 0 default)
    (w.pts.getD 1 default)
  obtain ⟨l2, h2, hsub2⟩ := lookupPt_pushEntry_preserves h1 (w.pts.getD 1 default)
    (w.pts.getD 0 default)
  exact ⟨l2, h2, hsub2 _ (hsub1 _ hy)⟩

theorem wiresFold_preserves :
    ∀ (ws : List Wire) (m : PtMap (List Pt)) {x y : Pt} {l : List Pt},
      lookupPt m x = some l → y ∈ l →
      ∃ l2, lookupPt (ws.foldl wireStep m) x = some l2 ∧ y ∈ l2 := by
  intro ws
  induction ws with
  | nil =>
    intro m x y l h hy
    exact ⟨l, h, hy⟩
  | cons w rest ih =>
    intro m x y l h hy
    obtain ⟨l1, h1, hy1⟩ := wireStep_preserves h hy w
    exact ih _ h1 hy1

theorem wireStep_self {m : PtMap (List Pt)} {w : Wire} {a b : Pt}
    (hw : w.pts = [a, b]) :
    (∃ l, lookupPt (wireStep m w) a = some l ∧ b ∈ l) ∧
      (∃ l, lookupPt (wireStep m w) b = some l ∧ a ∈ l) := by
  have h0 : w.pts.getD 0 default = a := by rw [hw]; rfl
  have h1 : w.pts.getD 1 default = b := by rw [hw]; rfl
  unfold wireStep
  rw [h0, h1]
  have hinner : lookupPt (pushEntry m a b) a = some ((lookupPt m a).getD [] ++ [b]) := by
    rw [lookupPt_pushEntry, if_pos (ptEq_refl a)]
  constructor
  · by_cases hba : ptEq b a = true
    · rw [lookupPt_pushEntry, if_pos hba, hinner]
      exact ⟨_, rfl, by simp⟩
    · rw [lookupPt_pushEntry, if_neg (by simp [hba]), hinner]
      exact ⟨_, rfl, by simp⟩
  · rw [lookupPt_pushEntry, if_pos (ptEq_refl b)]
    exact ⟨_, rfl, by simp⟩

theorem wiresFold_adj :
    ∀ (ws : List Wire) (m : PtMap (List Pt)) {w : Wire} {a b : Pt},
      w ∈ ws → w.pts = [a, b] →
      (∃ l, lookupPt (ws.foldl wireStep m) a = some l ∧ b ∈ l) ∧
        (∃ l, lookupPt (ws.foldl wireStep m) b = some l ∧ a ∈ l) := by
  intro ws
  induction ws with
  | nil => intro m w a b hmem; exact absurd hmem (List.not_mem_nil w)
  | cons w0 rest ih =>
    intro m w a b hmem hw
    rcases List.mem_cons.mp hmem with rfl | hmem2
    · obtain ⟨⟨l1, hl1, hb⟩, ⟨l2, hl2, ha⟩⟩ := wireStep_self (m := m) hw
      exact ⟨wiresFold_preserves rest _ hl1 hb, wiresFold_preserves rest _ hl2 ha⟩
    · exact ih _ hmem2 hw

/-- C7: for every wire with endpoints `a` and `b` in the schema, the
adjacency map contains `b` in the neighbour list keyed by `a` (under the
quantised key equality), and `a` in the list keyed by `b`. -/
theorem wire_adjacency_symmetry (schema : Schema) (w : Wire) (a b : Pt)
    (hmem : SchemaItem.wire w ∈ schema.items) (hpts : w.pts = [a, b]) :
    (∃ l, lookupPt (wiresMap schema) a = some l ∧ b ∈ l) ∧
      (∃ l, lookupPt (wiresMap schema) b = some l ∧ a ∈ l) := by
  unfold wiresMap
  refine wiresFold_adj _ [] ?_ hpts
  simp only [List.mem_filterMap]
  exact ⟨SchemaItem.wire w, hmem, rfl⟩

/-- Witness for `wire_adjacency_symmetry` on a one-wire schema. -/
theorem wire_adjacency_symmetry_witness :
    (∃ l, lookupPt (wiresMap oneWireSchema) ⟨0, 0⟩ = some l ∧ Pt.mk 1 0 ∈ l) ∧
      (∃ l, lookupPt (wiresMap oneWireSchema) ⟨1, 0⟩ = some l ∧ Pt.mk 0 0 ∈ l) :=
  wire_adjacency_symmetry oneWireSchema ⟨[⟨0, 0⟩, ⟨1, 0⟩]⟩ ⟨0, 0⟩ ⟨1, 0⟩
    (by simp [oneWireSchema]) rfl

theorem string_foldl_append (l : List String) :
    ∀ a : String, l.foldl (fun r s => r ++ s) a = a ++ l.foldl (fun r s => r ++ s) "" := by
  induction l with
  | nil =>
    intro a
    exact (String.append_empty a).symm
  | cons b l ih =>
    intro a
    show l.foldl _ (a ++ b) = a ++ l.foldl _ ("" ++ b)
    rw [ih (a ++ b), ih ("" ++ b), show ("" : String) ++ b = b from rfl,
      String.append_assoc]

theorem string_join_cons (s : String) (l : List String) :
    String.join (s :: l) = s ++ String.join l := by
  show l.foldl _ ("" ++ s) = s ++ String.join l
  rw [show ("" : String) ++ s = s from rfl]
  exact string_foldl_append l s

/-- Full characterisation of the naming fold of `generate_names`: the
positions vector accumulates every node position, the label is the last
label seen (power-pin `Value` or label text), the `first` flag tracks
whether a synthesized fragment has been emitted, and the name
accumulates the `"{reference}_{pin}"` fragments separated by `"__"`. -/
theorem nameFold_char :
    ∀ (items : List Node) (s : NameState),
      (items.foldl nameStep s).positions = s.positions ++ items.map Node.pos ∧
        (items.foldl nameStep s).label
          = items.foldl
              (fun acc n =>
                match labelOf n with
                | some v => some v
                | none => acc)
              s.label ∧
        (items.foldl nameStep s).first
          = (s.first && (items.filterMap pinName).isEmpty) ∧
        (items.foldl nameStep s).name
          = if s.first then s.name ++ joinSep (items.filterMap pinName)
            else s.name
              ++ String.join ((items.filterMap pinName).map fun x => "__" ++ x) := by
  intro items
  induction items with
  | nil =>
    intro s
    refine ⟨by simp, rfl, by simp, ?_⟩
    by_cases h : s.first <;>
      simp [h, joinSep, String.join, String.append_empty]
  | cons n rest ih =>
    intro s
    obtain ⟨ihp, ihl, ihf, ihn⟩ := ih (nameStep s n)
    rw [List.foldl_cons]
    cases n with
    | pin pos p symbol =>
      by_cases hpow : strStartsWith symbol.lib_id "power:" = true
      · refine ⟨?_, ?_, ?_, ?_⟩
        · rw [ihp]
          simp [nameStep, hpow, Node.pos]
        · rw [ihl]
          simp [nameStep, hpow, labelOf]
        · rw [ihf]
          simp [nameStep, hpow, pinName]
        · rw [ihn]
          simp [nameStep, hpow, pinName]
      · rw [Bool.not_eq_true] at hpow
        by_cases hf : s.first = true
        · refine ⟨?_, ?_, ?_, ?_⟩
          · rw [ihp]
            simp [nameStep, hpow, hf, Node.pos]
          · rw [ihl]
            simp [nameStep, hpow, hf, labelOf]
          · rw [ihf]
            simp [nameStep, hpow, hf, pinName]
          · rw [ihn]
            simp only [nameStep, hpow, Bool.false_eq_true, if_false, hf, if_true,
              List.filterMap_cons, pinName, joinSep, string_join_cons]
            simp [String.append_assoc]
        · rw [Bool.not_eq_true] at hf
          refine ⟨?_, ?_, ?_, ?_⟩
          · rw [ihp]
            simp [nameStep, hpow, hf, Node.pos]
          · rw [ihl]
            simp [nameStep, hpow, hf, labelOf]
          · rw [ihf]
            simp [nameStep, hpow, hf, pinName]
          · rw [ihn]
            simp only [nameStep, hpow, Bool.false_eq_true, if_false, hf,
              List.filterMap_cons, pinName, List.map_cons, string_join_cons]
            simp [String.append_assoc]
    | label pos l =>
      refine ⟨?_, ?_, ?_, ?_⟩
      · rw [ihp]
        simp [nameStep, Node.pos]
      · rw [ihl]
        simp [nameStep, labelOf]
      · rw [ihf]
        simp [nameStep, pinName]
      · rw [ihn]
        simp [nameStep, pinName]
    | globalLabel pos l =>
      refine ⟨?_, ?_, ?_, ?_⟩
      · rw [ihp]
        simp [nameStep, Node.pos]
      · rw [ihl]
        simp [nameStep, labelOf]
      · rw [ihf]
        simp [nameStep, pinName]
      · rw [ihn]
        simp [nameStep, pinName]
    | noConnect pos =>
      refine ⟨?_, ?_, ?_, ?_⟩
      · rw [ihp]
        simp [nameStep, Node.pos]
      · rw [ihl]
        simp [nameStep, labelOf]
      · rw [ihf]
        simp [nameStep, pinName]
      · rw [ihn]
        simp [nameStep, pinName]
    | junction pos =>
      refine ⟨?_, ?_, ?_, ?_⟩
      · rw [ihp]
        simp [nameStep, Node.pos]
      · rw [ihl]
        simp [nameStep, labelOf]
      · rw [ihf]
        simp [nameStep, pinName]
      · rw [ihn]
        simp [nameStep, pinName]

/-- C2 (amended): the name the extractor computes for a merged group is
the value of the *last* label-setting member in encounter order — a pin
of a `power:` symbol contributing the symbol's `Value`, a local or
global label contributing its text, whichever came last — and only when
no such member exists is it the concatenation of
`"{reference}_{pin_number}"` over the non-power member pins in encounter
order, joined by `"__"` for all but the first.  (The claimed priority of
power pins over labels does not hold; see the counterexample.) -/
theorem net_naming_rule (items : List Node) :
    groupValue items = (lastLabel items).getD (synthName items) := by
  obtain ⟨-, hl, -, hn⟩ := nameFold_char items ⟨"", none, [], true⟩
  show ((items.foldl nameStep ⟨"", none, [], true⟩).label).getD
    ((items.foldl nameStep ⟨"", none, [], true⟩).name) = _
  rw [hl, hn]
  show ((lastLabel items).getD (if true then "" ++ joinSep (items.filterMap pinName)
    else _)) = _
  rw [if_pos rfl, show ("" : String) ++ joinSep (items.filterMap pinName)
    = joinSep (items.filterMap pinName) from rfl]
  rfl

/-- C2 (counterexample): a group holding a pin of the power symbol
`power:VCC` (whose `Value` is `"VCC"`) followed by a local label `"X"`
is named `"X"`, not `"VCC"`: the label, coming later, overwrites the
power pin's value, so the claimed power-over-label priority fails. -/
theorem net_naming_counterexample :
    strStartsWith powerSymbol.lib_id "power:" = true ∧
      powerSymbol.property el.PROPERTY_VALUE = "VCC" ∧
      lookupPt (generate_names [(⟨0, 0⟩, powerThenLabelItems)]) ⟨0, 0⟩ = some "X" ∧
      ("X" : String) ≠ "VCC" := by
  refine ⟨by decide, rfl, by decide, by decide⟩

/-- C8: the text-outline rule returns `Ok` with a rectangle for the four
exact angles 0°, 90°, 180° and 270°, is a fatal abort (process panic)
for every other angle, and in the 180° case first runs the measured
dimensions through the rotation `Transform` before building the start
point and rectangle from them. -/
theorem text_outline_angles (fcos fsin : ℚ → ℚ) (dim : Pt) (pos : Pos)
    (effects : Effects) :
    ((pos.angle = 0 ∨ pos.angle = 90 ∨ pos.angle = 180 ∨ pos.angle = 270) →
        ∃ r, textBBox fcos fsin dim pos effects = TextResult.ok r) ∧
      (¬(pos.angle = 0 ∨ pos.angle = 90 ∨ pos.angle = 180 ∨ pos.angle = 270) →
        textBBox fcos fsin dim pos effects
          = TextResult.panicked ("unsupported angle " ++ toString pos.angle)) ∧
      (pos.angle = 180 →
        textBBox fcos fsin dim pos effects
          = TextResult.ok (textFinish
              (textStart180
                ((Transform.new.rotation pos.angle).transform1 fcos fsin dim) pos
                effects)
              ((Transform.new.rotation pos.angle).transform1 fcos fsin dim))) := by
  refine ⟨?_, ?_, ?_⟩
  · rintro (h | h | h | h)
    · exact ⟨_, by unfold textBBox; rw [if_pos h]⟩
    · exact ⟨_, by
        unfold textBBox
        rw [if_neg (by rw [h]; norm_num), if_pos h]⟩
    · exact ⟨_, by
        unfold textBBox
        rw [if_neg (by rw [h]; norm_num), if_neg (by rw [h]; norm_num), if_pos h]⟩
    · exact ⟨_, by
        unfold textBBox
        rw [if_neg (by rw [h]; norm_num), if_neg (by rw [h]; norm_num),
          if_neg (by rw [h]; norm_num), if_pos h]⟩
  · intro hcon
    push_neg at hcon
    obtain ⟨h0, h90, h180, h270⟩ := hcon
    unfold textBBox
    rw [if_neg h0, if_neg h90, if_neg h180, if_neg h270]
  · intro h180
    norm_num [textBBox, h180]

/-- Witness for `text_outline_angles`: angle 0 yields a rectangle and
angle 45 aborts. -/
theorem text_outline_angles_witness :
    (∃ r, textBBox trigC trigS ⟨3, 1⟩ ⟨0, 0, 0⟩ ⟨[]⟩ = TextResult.ok r) ∧
      textBBox trigC trigS ⟨3, 1⟩ ⟨0, 0, 45⟩ ⟨[]⟩
        = TextResult.panicked ("unsupported angle " ++ toString (45 : ℚ)) :=
  ⟨(text_outline_angles trigC trigS ⟨3, 1⟩ ⟨0, 0, 0⟩ ⟨[]⟩).1 (Or.inl rfl),
   (text_outline_angles trigC trigS ⟨3, 1⟩ ⟨0, 0, 45⟩ ⟨[]⟩).2.1 (by norm_num)⟩

/-- C10: the bounding-box aggregation over an empty point set returns
`Rect::default()` (all coordinates zero) rather than failing, so a
placed symbol whose library symbol contributes no graphic points and no
pins has the zero rectangle as its outline. -/
theorem empty_outline_default (fcos fsin : ℚ → ℚ) (schema : Schema) (sym : Symbol)
    (lib : LibrarySymbol) (hlib : schema.library_symbol sym.lib_id = some lib)
    (hpts : symbolPts fcos fsin lib sym = []) :
    calculate [] = (⟨⟨0, 0⟩, ⟨0, 0⟩⟩ : Rect) ∧
      Symbol.outline fcos fsin schema sym = some ⟨⟨0, 0⟩, ⟨0, 0⟩⟩ := by
  refine ⟨rfl, ?_⟩
  rw [Symbol.outline, hlib, Option.map_some', hpts]
  rfl

/-- Witness for `empty_outline_default`: a library symbol with no
sub-units placed in a schema. -/
theorem empty_outline_default_witness :
    bareSchema.library_symbol bareSymbol.lib_id = some bareLib ∧
      symbolPts trigC trigS bareLib bareSymbol = [] ∧
      (calculate [] = (⟨⟨0, 0⟩, ⟨0, 0⟩⟩ : Rect) ∧
        Symbol.outline trigC trigS bareSchema bareSymbol = some ⟨⟨0, 0⟩, ⟨0, 0⟩⟩) :=
  ⟨rfl, rfl, empty_outline_default trigC trigS bareSchema bareSymbol bareLib rfl rfl⟩

/-- C4 (counterexample): resolving a pin reference against a schema that
does not contain the symbol does not return a typed error to the
caller — `get_pt` has result type `Pt` and runs the constructed
`Error("builder", …)` through `.unwrap()`, aborting the process. -/
theorem position_resolver_counterexample :
    getPt trigC trigS emptySchema (At.pin "U1" "1")
      = Resolved.panicked ⟨"builder", "pin unit not found (U1, 1)"⟩ := rfl

/-- C4 (amended): the position resolver `get_pt` returns a plain `Pt`;
when the owning unit, the placed symbol, its library symbol, or the pin
cannot be found — checked in that order — it constructs
`Error("builder", message)` and panics (aborting the process) instead of
returning it, and `At::Dot` hits `todo!()`.  The missing-library case
reuses the `"symbol unit not found"` message text. -/
theorem position_resolver_panics (fcos fsin : ℚ → ℚ) (s : Schema) (r p : String) :
    (s.pin_unit r p = none →
        getPt fcos fsin s (At.pin r p)
          = Resolved.panicked
              ⟨"builder", "pin unit not found (" ++ r ++ ", " ++ p ++ ")"⟩) ∧
      (∀ u, s.pin_unit r p = some u → s.symbol r u = none →
        getPt fcos fsin s (At.pin r p)
          = Resolved.panicked
              ⟨"builder",
                "symbol unit not found (" ++ r ++ ", " ++ toString u ++ ")"⟩) ∧
      (∀ u sym, s.pin_unit r p = some u → s.symbol r u = some sym →
        s.library_symbol sym.lib_id = none →
        getPt fcos fsin s (At.pin r p)
          = Resolved.panicked
              ⟨"builder",
                "symbol unit not found (" ++ r ++ ", " ++ toString u ++ ")"⟩) ∧
      (∀ u sym lib, s.pin_unit r p = some u → s.symbol r u = some sym →
        s.library_symbol sym.lib_id = some lib → lib.pin p = none →
        getPt fcos fsin s (At.pin r p)
          = Resolved.panicked ⟨"builder", "pin not found (" ++ p ++ ")"⟩) ∧
      (∀ q, getPt fcos fsin s (At.pt q) = Resolved.ok q) ∧
      (∀ d, getPt fcos fsin s (At.dot d) = Resolved.todoPanic) := by
  refine ⟨?_, ?_, ?_, ?_, fun q => rfl, fun d => rfl⟩
  · intro h
    simp [getPt, h]
  · intro u h1 h2
    simp [getPt, h1, h2]
  · intro u sym h1 h2 h3
    simp [getPt, h1, h2, h3]
  · intro u sym lib h1 h2 h3 h4
    simp [getPt, h1, h2, h3, h4]

/-- Witness for `position_resolver_panics`: the empty schema has no pin
unit for `("U1", "1")`, and resolution panics. -/
theorem position_resolver_panics_witness :
    emptySchema.pin_unit "U1" "1" = none ∧
      getPt trigC trigS emptySchema (At.pin "U1" "1")
        = Resolved.panicked ⟨"builder", "pin unit not found (U1, 1)"⟩ :=
  ⟨rfl, (position_resolver_panics trigC trigS emptySchema "U1" "1").1 rfl⟩

/-- C9 (counterexample): extraction is not total over all schemas — a
schema holding a wire with a single point makes the `pts[1]` index in
`Netlist::wires` abort the process, so `Netlist::from` does not return
`Ok` (or anything) on it. -/
theorem netlist_from_counterexample :
    SchemaItem.wire ⟨[⟨0, 0⟩]⟩ ∈ shortWireSchema.items ∧
      (⟨[⟨0, 0⟩]⟩ : Wire).pts.length < 2 ∧
      netlist_fromP trigC trigS shortWireSchema = none :=
  ⟨by decide, by decide, rfl⟩

theorem wiresFoldP_some :
    ∀ (ws : List Wire), (∀ w ∈ ws, 2 ≤ w.pts.length) →
      ∀ m : PtMap (List Pt),
        ∃ m', ws.foldl (fun acc w => acc.bind fun mm => wireStepP mm w) (some m)
          = some m' := by
  intro ws
  induction ws with
  | nil => exact fun _ m => ⟨m, rfl⟩
  | cons w rest ih =>
    intro h m
    have h2 : 2 ≤ w.pts.length := h w (by simp)
    obtain ⟨a, b, t, hpts⟩ : ∃ a b t, w.pts = a :: b :: t := by
      cases hp : w.pts with
      | nil =>
        rw [hp] at h2
        simp at h2
      | cons a tl =>
        cases htl : tl with
        | nil =>
          rw [hp, htl] at h2
          simp at h2
        | cons b t => exact ⟨a, b, t, rfl⟩
    have hstep : wireStepP m w = some (pushEntry (pushEntry m a b) b a) := by
      unfold wireStepP
      rw [hpts]
      rfl
    rw [List.foldl_cons]
    show ∃ m', rest.foldl _ ((some m).bind fun mm => wireStepP mm w) = some m'
    rw [Option.some_bind, hstep]
    exact ih (fun x hx => h x (by simp [hx])) _

/-- C9 (amended): the `Err` branch of `Netlist::from` is never produced —
whenever extraction returns at all it returns `Ok`, so callers never
observe an `Err` — and for every schema whose wires all have at least
two points extraction does return `Ok`.  A wire with fewer than two
points aborts extraction through the `pts[0]`/`pts[1]` index panic in
`Netlist::wires`: an abort, not a return, so the original
for-every-schema totality fails (see the counterexample). -/
theorem netlist_from_ok (fcos fsin : ℚ → ℚ) (schema : Schema) :
    (∀ r, netlist_fromP fcos fsin schema = some r → ∃ n, r = Except.ok n) ∧
      ((∀ w : Wire, SchemaItem.wire w ∈ schema.items → 2 ≤ w.pts.length) →
        ∃ n, netlist_fromP fcos fsin schema = some (Except.ok n)) := by
  constructor
  · intro r hr
    unfold netlist_fromP at hr
    cases hw : wiresMapP schema with
    | none =>
      rw [hw] at hr
      simp at hr
    | some wires =>
      rw [hw, Option.map_some'] at hr
      exact ⟨_, (Option.some.inj hr).symm⟩
  · intro hwf
    have hall : ∀ w ∈ (schema.items.filterMap fun it =>
        match it with
        | .wire w => some w
        | _ => none), 2 ≤ w.pts.length := by
      intro w hw
      rw [List.mem_filterMap] at hw
      obtain ⟨it, hit, hmatch⟩ := hw
      cases it with
      | wire w2 =>
        simp only [Option.some.injEq] at hmatch
        subst hmatch
        exact hwf _ hit
      | symbol s => simp at hmatch
      | junction j => simp at hmatch
      | noConnect n => simp at hmatch
      | localLabel l => simp at hmatch
      | globalLabel l => simp at hmatch
      | other => simp at hmatch
    obtain ⟨m, hm⟩ := wiresFoldP_some _ hall []
    unfold netlist_fromP wiresMapP
    rw [hm, Option.map_some']
    exact ⟨_, rfl⟩

/-- Witness for `netlist_from_ok`: the one-wire schema's wire has two
points and extraction returns `Ok`. -/
theorem netlist_from_ok_witness :
    ∃ n, netlist_fromP trigC trigS oneWireSchema = some (Except.ok n) :=
  (netlist_from_ok trigC trigS oneWireSchema).2 (by
    intro w hw
    simp only [oneWireSchema, List.mem_singleton, SchemaItem.wire.injEq] at hw
    subst hw
    decide)

/-! ### Invariants of the wire search

For `seek_wire` (and its loop body `seek_step`): the visited list only
grows, everything found was unvisited at the start of the call, and both
the argument point and everything found are visited afterwards.  These
hold for every fuel value. -/

theorem seek_step_facts (f : Pt → List Pt → List Pt × List Pt)
    (hf : ∀ w vis,
      (∃ t, (f w vis).2 = vis ++ t) ∧
        (∀ q ∈ (f w vis).1, memPt vis q = false) ∧
        (∀ q ∈ (f w vis).1, memPt (f w vis).2 q = true) ∧
        memPt (f w vis).2 w = true) :
    ∀ (ls visited : List Pt),
      (∃ t, (seek_step f ls visited).2 = visited ++ t) ∧
        (∀ q ∈ (seek_step f ls visited).1,
          memPt visited q = false ∨ memPt ls q = true) ∧
        (∀ q ∈ (seek_step f ls visited).1,
          memPt (seek_step f ls visited).2 q = true) := by
  intro ls
  induction ls with
  | nil =>
    intro visited
    exact ⟨⟨[], by simp [seek_step]⟩, by simp [seek_step], by simp [seek_step]⟩
  | cons w ws ih =>
    intro visited
    have hstep : seek_step f (w :: ws) visited
        = (w :: ((f w visited).1 ++ (seek_step f ws (f w visited).2).1),
           (seek_step f ws (f w visited).2).2) := rfl
    obtain ⟨⟨t1, ht1⟩, hb1, hc1, hd1⟩ := hf w visited
    obtain ⟨⟨t2, ht2⟩, hb2, hc2⟩ := ih (f w visited).2
    rw [hstep]
    refine ⟨⟨t1 ++ t2, ?_⟩, ?_, ?_⟩
    · show (seek_step f ws (f w visited).2).2 = visited ++ (t1 ++ t2)
      rw [ht2, ht1, List.append_assoc]
    · intro q hq
      rcases List.mem_cons.mp hq with rfl | hq2
      · right
        rw [memPt_cons, ptEq_refl]
        rfl
      rcases List.mem_append.mp hq2 with hq3 | hq4
      · exact Or.inl (hb1 q hq3)
      · rcases hb2 q hq4 with h | h
        · exact Or.inl (memPt_false_of_append (ht1 ▸ h))
        · right
          rw [memPt_cons, h, Bool.or_true]
    · intro q hq
      show memPt (seek_step f ws (f w visited).2).2 q = true
      rcases List.mem_cons.mp hq with rfl | hq2
      · rw [ht2]
        exact memPt_mono hd1
      rcases List.mem_append.mp hq2 with hq3 | hq4
      · rw [ht2]
        exact memPt_mono (hc1 q hq3)
      · exact hc2 q hq4

theorem seek_wire_facts (wires : PtMap (List Pt)) :
    ∀ (fuel : ℕ) (pt : Pt) (visited : List Pt),
      (∃ t, (seek_wire wires fuel pt visited).2 = visited ++ t) ∧
        (∀ q ∈ (seek_wire wires fuel pt visited).1, memPt visited q = false) ∧
        (∀ q ∈ (seek_wire wires fuel pt visited).1,
          memPt (seek_wire wires fuel pt visited).2 q = true) ∧
        memPt (seek_wire wires fuel pt visited).2 pt = true := by
  have base : ∀ (fuel : ℕ) (pt : Pt) (visited : List Pt),
      (seek_wire wires fuel pt visited).1 = [] →
      (seek_wire wires fuel pt visited).2 = visited ++ [pt] →
      (∃ t, (seek_wire wires fuel pt visited).2 = visited ++ t) ∧
        (∀ q ∈ (seek_wire wires fuel pt visited).1, memPt visited q = false) ∧
        (∀ q ∈ (seek_wire wires fuel pt visited).1,
          memPt (seek_wire wires fuel pt visited).2 q = true) ∧
        memPt (seek_wire wires fuel pt visited).2 pt = true := by
    intro fuel pt visited h1 h2
    refine ⟨⟨[pt], h2⟩, ?_, ?_, ?_⟩
    · rw [h1]
      intro q hq
      exact absurd hq (List.not_mem_nil q)
    · rw [h1]
      intro q hq
      exact absurd hq (List.not_mem_nil q)
    · rw [h2, memPt_append, memPt_cons, ptEq_refl]
      simp
  intro fuel
  induction fuel with
  | zero =>
    intro pt visited
    cases hg : lookupPt wires pt with
    | none => exact base 0 pt visited (by simp [seek_wire, get_wire, hg]) (by simp [seek_wire, get_wire, hg])
    | some ns => exact base 0 pt visited (by simp [seek_wire, get_wire, hg]) (by simp [seek_wire, get_wire, hg])
  | succ n ih =>
    intro pt visited
    cases hg : lookupPt wires pt with
    | none =>
      exact base (n + 1) pt visited (by simp [seek_wire, get_wire, hg])
        (by simp [seek_wire, get_wire, hg])
    | some ns =>
      have hsw : seek_wire wires (n + 1) pt visited
          = seek_step (fun w vis => seek_wire wires n w vis)
              (ns.filter fun p => !(memPt (visited ++ [pt]) p)) (visited ++ [pt]) := by
        rw [seek_wire]
        simp [get_wire, hg]
      obtain ⟨⟨t, ht⟩, hb, hc⟩ := seek_step_facts (fun w vis => seek_wire wires n w vis)
        (fun w vis => ih w vis)
        (ns.filter fun p => !(memPt (visited ++ [pt]) p)) (visited ++ [pt])
      rw [hsw]
      refine ⟨⟨[pt] ++ t, by rw [ht, List.append_assoc]⟩, ?_, hc, ?_⟩
      · intro q hq
        rcases hb q hq with h | h
        · exact memPt_false_of_append h
        · simp only [memPt, List.any_eq_true] at h
          obtain ⟨w, hw, hwq⟩ := h
          have hw2 := List.of_mem_filter hw
          rw [Bool.not_eq_true'] at hw2
          have hmw : memPt (visited ++ [pt]) w = false := hw2
          have : memPt (visited ++ [pt]) q = false := by
            rw [← memPt_congr hwq]
            exact hmw
          exact memPt_false_of_append this
      · rw [ht]
        refine memPt_mono ?_
        rw [memPt_append, memPt_cons, ptEq_refl]
        simp

/-! ### The connection-point map places every node at its key -/

theorem pushEntry_nodesOK {m : PtMap (List Node)} {p : Pt} {nd : Node}
    (hm : NodesOK m) (hnd : ptEq (Node.pos nd) p = true) :
    NodesOK (pushEntry m p nd) := by
  induction m with
  | nil =>
    intro e he x hx
    simp only [pushEntry, List.mem_singleton] at he
    subst he
    simp only [List.mem_singleton] at hx
    subst hx
    exact hnd
  | cons e0 rest ih =>
    obtain ⟨k, l⟩ := e0
    have hm0 := hm (k, l) (by simp)
    have hmrest : NodesOK rest := fun e he x hx => hm e (by simp [he]) x hx
    by_cases hkp : ptEq k p = true
    · intro e he x hx
      simp only [pushEntry, hkp, if_true, List.mem_cons] at he
      rcases he with rfl | he2
      · simp only [List.mem_append, List.mem_singleton] at hx
        rcases hx with hx | rfl
        · exact hm0 x hx
        · have hpk : ptEq p k = true := by rw [ptEq_symm]; exact hkp
          exact ptEq_trans hnd hpk
      · exact hmrest e he2 x hx
    · intro e he x hx
      rw [Bool.not_eq_true] at hkp
      simp only [pushEntry, hkp, Bool.false_eq_true, if_false, List.mem_cons] at he
      rcases he with he | he2
      · subst he
        exact hm0 x hx
      · exact ih hmrest e he2 x hx

theorem pins_fold_nodesOK (fcos fsin : ℚ → ℚ) (symbol : Symbol) :
    ∀ (pins : List Pin) (ps : PtMap (List Node)), NodesOK ps →
      NodesOK (pins.foldl
        (fun ps p =>
          pushEntry ps (pin_position fcos fsin symbol p)
            (Node.pin (pin_position fcos fsin symbol p) p symbol))
        ps) := by
  intro pins
  induction pins with
  | nil => exact fun ps h => h
  | cons p rest ih =>
    intro ps h
    exact ih _ (pushEntry_nodesOK h (ptEq_refl _))

theorem collectStep_nodesOK (fcos fsin : ℚ → ℚ) (schema : Schema)
    {ps : PtMap (List Node)} (h : NodesOK ps) (item : SchemaItem) :
    NodesOK (collectStep fcos fsin schema ps item) := by
  cases item with
  | symbol symbol =>
    unfold collectStep
    by_cases hmech : strStartsWith symbol.lib_id "Mechanical:" = true
    · simp only [hmech, if_true]
      exact h
    · rw [Bool.not_eq_true] at hmech
      simp only [hmech]
      cases hl : schema.library_symbol symbol.lib_id with
      | none => exact h
      | some l => exact pins_fold_nodesOK fcos fsin symbol _ ps h
  | wire w => exact h
  | junction j => exact pushEntry_nodesOK h (ptEq_refl _)
  | noConnect n => exact pushEntry_nodesOK h (ptEq_refl _)
  | localLabel l => exact pushEntry_nodesOK h (ptEq_refl _)
  | globalLabel l => exact pushEntry_nodesOK h (ptEq_refl _)
  | other => exact h

theorem collect_points_nodesOK (fcos fsin : ℚ → ℚ) (schema : Schema) :
    NodesOK (collect_points fcos fsin schema) := by
  unfold collect_points
  have : ∀ (items : List SchemaItem) (ps : PtMap (List Node)), NodesOK ps →
      NodesOK (items.foldl (collectStep fcos fsin schema) ps) := by
    intro items
    induction items with
    | nil => exact fun ps h => h
    | cons it rest ih =>
      intro ps h
      exact ih _ (collectStep_nodesOK fcos fsin schema h it)
  exact this schema.items [] (fun e he => absurd he (List.not_mem_nil e))

/-! ### The merge loop -/

theorem merge_nodes_facts (positions : PtMap (List Node)) (hpos : NodesOK positions) :
    ∀ (ws : List Pt) (acc : List Node × List Pt),
      (∃ t, (merge_nodes positions ws acc).2 = acc.2 ++ t) ∧
        (∀ nd ∈ (merge_nodes positions ws acc).1,
          nd ∈ acc.1 ∨ memPt ws (Node.pos nd) = true) ∧
        (∀ nd ∈ (merge_nodes positions ws acc).1,
          nd ∈ acc.1 ∨ memPt (merge_nodes positions ws acc).2 (Node.pos nd) = true) := by
  intro ws
  induction ws with
  | nil =>
    intro acc
    exact ⟨⟨[], by simp [merge_nodes]⟩, fun nd hnd => Or.inl hnd,
      fun nd hnd => Or.inl hnd⟩
  | cons w ws ih =>
    intro acc
    cases hw : lookupPt positions w with
    | none =>
      have hm : merge_nodes positions (w :: ws) acc = merge_nodes positions ws acc := by
        simp [merge_nodes, hw]
      rw [hm]
      obtain ⟨ht, h2, h3⟩ := ih acc
      refine ⟨ht, fun nd hnd => ?_, h3⟩
      rcases h2 nd hnd with h | h
      · exact Or.inl h
      · right
        rw [memPt_cons, h, Bool.or_true]
    | some other =>
      have hm : merge_nodes positions (w :: ws) acc
          = merge_nodes positions ws (acc.1 ++ other, acc.2 ++ [w]) := by
        simp [merge_nodes, hw]
      rw [hm]
      obtain ⟨⟨t, ht⟩, h2, h3⟩ := ih (acc.1 ++ other, acc.2 ++ [w])
      have hother : ∀ nd ∈ other, ptEq (Node.pos nd) w = true := by
        intro nd hnd
        obtain ⟨k, hkmem, hkw⟩ := lookupPt_mem hw
        exact ptEq_trans (hpos (k, other) hkmem nd hnd) hkw
      refine ⟨⟨[w] ++ t, by rw [ht, List.append_assoc]⟩, ?_, ?_⟩
      · intro nd hnd
        rcases h2 nd hnd with h | h
        · rcases List.mem_append.mp h with h4 | h4
          · exact Or.inl h4
          · right
            have hwnd : ptEq w (Node.pos nd) = true := by
              rw [ptEq_symm]
              exact hother nd h4
            rw [memPt_cons, hwnd]
            rfl
        · right
          rw [memPt_cons, h, Bool.or_true]
      · intro nd hnd
        rcases h3 nd hnd with h | h
        · rcases List.mem_append.mp h with h4 | h4
          · exact Or.inl h4
          · right
            rw [ht, memPt_append, memPt_append]
            have hwnd : memPt [w] (Node.pos nd) = true := by
              have : ptEq w (Node.pos nd) = true := by
                rw [ptEq_symm]
                exact hother nd h4
              rw [memPt_cons, this]
              rfl
            rw [hwnd]
            simp
        · exact Or.inr h

/-! ### The grouping loop of `Netlist::from` keeps groups disjoint -/

theorem from_step_inv (positions : PtMap (List Node)) (wires : PtMap (List Pt))
    (fuel : ℕ) (hpos : NodesOK positions) (acc : PtMap (List Node) × List Pt × List Pt)
    (entry : Pt × List Node) (hent : entry ∈ positions) (hinv : FromInv acc) :
    FromInv (from_step positions wires fuel acc entry) := by
  obtain ⟨groups, vP, vW⟩ := acc
  by_cases hskip : memPt vP entry.1 = true
  · unfold from_step
    rw [if_pos hskip]
    exact hinv
  · rw [Bool.not_eq_true] at hskip
    obtain ⟨hBC, hdisj⟩ := hinv
    have hfrom : from_step positions wires fuel (groups, vP, vW) entry
        = (insertPt groups entry.1
            (merge_nodes positions (seek_wire wires fuel entry.1 vW).1
              (entry.2, vP ++ [entry.1])).1,
           (merge_nodes positions (seek_wire wires fuel entry.1 vW).1
              (entry.2, vP ++ [entry.1])).2,
           (seek_wire wires fuel entry.1 vW).2) := by
      unfold from_step
      rw [if_neg (by simp [hskip])]
    set sw := seek_wire wires fuel entry.1 vW with hsweq
    set merged := merge_nodes positions sw.1 (entry.2, vP ++ [entry.1]) with hmeq
    obtain ⟨⟨tW, htW⟩, hseekB, hseekC, hseekD⟩ := seek_wire_facts wires fuel entry.1 vW
    obtain ⟨⟨tP, htP⟩, hM2, hM3⟩ :=
      merge_nodes_facts positions hpos sw.1 (entry.2, vP ++ [entry.1])
    have hentOK : ∀ nd ∈ entry.2, ptEq (Node.pos nd) entry.1 = true := fun nd hnd =>
      hpos entry hent nd hnd
    have hkeymem : memPt (vP ++ [entry.1]) entry.1 = true := by
      rw [memPt_append, memPt_cons, ptEq_refl]
      simp
    have hcharW : ∀ a ∈ groupCoords entry.1 merged.1,
        ptEq a entry.1 = true ∨ memPt sw.1 a = true := by
      intro a ha
      rcases List.mem_cons.mp ha with rfl | ha2
      · exact Or.inl (ptEq_refl _)
      · obtain ⟨nd, hnd, rfl⟩ := List.mem_map.mp ha2
        rcases hM2 nd hnd with h | h
        · exact Or.inl (hentOK nd h)
        · exact Or.inr h
    have hcharP : ∀ a ∈ groupCoords entry.1 merged.1, memPt merged.2 a = true := by
      intro a ha
      rcases List.mem_cons.mp ha with rfl | ha2
      · rw [htP]
        exact memPt_mono hkeymem
      · obtain ⟨nd, hnd, rfl⟩ := List.mem_map.mp ha2
        rcases hM3 nd hnd with h | h
        · rw [memPt_congr (hentOK nd h), htP]
          exact memPt_mono hkeymem
        · exact h
    have hcharWv : ∀ a ∈ groupCoords entry.1 merged.1, memPt sw.2 a = true := by
      intro a ha
      rcases hcharW a ha with h | h
      · rw [memPt_congr h]
        exact hseekD
      · simp only [memPt, List.any_eq_true] at h
        obtain ⟨w, hw, hwa⟩ := h
        rw [← memPt_congr hwa]
        exact hseekC w hw
    have habsent : lookupPt groups entry.1 = none := by
      rw [lookupPt_eq_none]
      intro e he
      cases hke : ptEq e.1 entry.1
      · rfl
      · exfalso
        have h1 : memPt vP e.1 = true := (hBC e he e.1 (by simp [groupCoords])).1
        rw [memPt_congr hke] at h1
        rw [hskip] at h1
        exact Bool.false_ne_true h1
    rw [hfrom, insertPt_of_absent _ habsent]
    constructor
    · intro e he a ha
      rcases List.mem_append.mp he with hold | hnew
      · obtain ⟨hP, hW⟩ := hBC e hold a ha
        constructor
        · rw [htP, memPt_append, memPt_append, hP]
          rfl
        · rw [htW, memPt_append, hW]
          rfl
      · simp only [List.mem_singleton] at hnew
        subst hnew
        exact ⟨hcharP a ha, hcharWv a ha⟩
    · rw [GroupsDisjoint, List.pairwise_append]
      refine ⟨hdisj, List.pairwise_singleton _ _, ?_⟩
      intro e1 he1 e2 he2
      simp only [List.mem_singleton] at he2
      subst he2
      intro a ha b hb
      cases hab : ptEq a b
      · rfl
      · exfalso
        rcases hcharW b hb with h | h
        · have ha1 : ptEq a entry.1 = true := ptEq_trans hab h
          have hPa := (hBC e1 he1 a ha).1
          rw [memPt_congr ha1] at hPa
          rw [hskip] at hPa
          exact Bool.false_ne_true hPa
        · simp only [memPt, List.any_eq_true] at h
          obtain ⟨w, hw, hwb⟩ := h
          have hWa : memPt vW a = true := (hBC e1 he1 a ha).2
          have hWw : memPt vW w = false := hseekB w hw
          have hba : ptEq b a = true := by
            rw [ptEq_symm]
            exact hab
          have hwa : ptEq w a = true := ptEq_trans hwb hba
          rw [memPt_congr hwa, hWa] at hWw
          exact absurd hWw (by simp)

theorem from_fold_inv (positions : PtMap (List Node)) (wires : PtMap (List Pt))
    (fuel : ℕ) (hpos : NodesOK positions) :
    ∀ (ps : List (Pt × List Node)), (∀ e ∈ ps, e ∈ positions) →
      ∀ acc, FromInv acc →
        FromInv (ps.foldl (from_step positions wires fuel) acc) := by
  intro ps
  induction ps with
  | nil => exact fun _ acc h => h
  | cons e rest ih =>
    intro hps acc hacc
    exact ih (fun x hx => hps x (by simp [hx]))
      _ (from_step_inv positions wires fuel hpos acc e (hps e (by simp)) hacc)

/-! ### Name recording -/

theorem lookup_insert_fold (v : String) :
    ∀ (ps : List Pt) (names : PtMap String) (a : Pt),
      lookupPt (ps.foldl (fun ns p => insertPt ns p v) names) a
        = if memPt ps a = true then some v else lookupPt names a := by
  intro ps
  induction ps with
  | nil =>
    intro names a
    simp [memPt]
  | cons p rest ih =>
    intro names a
    rw [List.foldl_cons, ih, memPt_cons]
    by_cases hpa : ptEq p a = true
    · by_cases hra : memPt rest a = true
      · simp [hpa, hra]
      · rw [Bool.not_eq_true] at hra
        simp [hpa, hra, lookupPt_insertPt]
    · rw [Bool.not_eq_true] at hpa
      simp only [hpa, Bool.false_or]
      by_cases hra : memPt rest a = true
      · simp [hra]
      · rw [Bool.not_eq_true] at hra
        simp [hra, lookupPt_insertPt, hpa]

theorem groupValue_any_key (items : List Node) (k : Pt) :
    (items.foldl nameStep ⟨"", none, [k], true⟩).label.getD
      ((items.foldl nameStep ⟨"", none, [k], true⟩).name) = groupValue items := by
  obtain ⟨-, hl, -, hn⟩ := nameFold_char items ⟨"", none, [k], true⟩
  obtain ⟨-, hl0, -, hn0⟩ := nameFold_char items ⟨"", none, [], true⟩
  show _ = (items.foldl nameStep ⟨"", none, [], true⟩).label.getD
    ((items.foldl nameStep ⟨"", none, [], true⟩).name)
  rw [hl, hn, hl0, hn0]

theorem gnStep_char (names : PtMap String) (entry : Pt × List Node) (a : Pt) :
    lookupPt (gnStep names entry) a
      = if memPt (groupCoords entry.1 entry.2) a = true then some (groupValue entry.2)
        else lookupPt names a := by
  obtain ⟨hp, -, -, -⟩ := nameFold_char entry.2 ⟨"", none, [entry.1], true⟩
  show lookupPt
      ((entry.2.foldl nameStep ⟨"", none, [entry.1], true⟩).positions.foldl
        (fun ns p => insertPt ns p
          ((entry.2.foldl nameStep ⟨"", none, [entry.1], true⟩).label.getD
            ((entry.2.foldl nameStep ⟨"", none, [entry.1], true⟩).name)))
        names) a = _
  rw [lookup_insert_fold, hp, groupValue_any_key]
  rfl

theorem gn_fold_lookup :
    ∀ (gs : PtMap (List Node)) (names : PtMap String),
      GroupsDisjoint gs →
      ∀ e ∈ gs, ∀ a ∈ groupCoords e.1 e.2,
        lookupPt (gs.foldl gnStep names) a = some (groupValue e.2) := by
  intro gs
  induction gs with
  | nil =>
    intro names _ e he
    exact absurd he (List.not_mem_nil e)
  | cons g rest ih =>
    intro names hdisj e he a ha
    rw [GroupsDisjoint, List.pairwise_cons] at hdisj
    obtain ⟨hg, hrest⟩ := hdisj
    rw [List.foldl_cons]
    rcases List.mem_cons.mp he with heq | he2
    · subst heq
      have huntouched : ∀ (gs' : PtMap (List Node)) (names' : PtMap String),
          (∀ g' ∈ gs', ∀ b ∈ groupCoords g'.1 g'.2, ptEq a b = false) →
          lookupPt (gs'.foldl gnStep names') a = lookupPt names' a := by
        intro gs'
        induction gs' with
        | nil =>
          intro names' _
          rfl
        | cons g' rest' ih' =>
          intro names' hno
          rw [List.foldl_cons, ih' _ (fun x hx => hno x (by simp [hx])), gnStep_char]
          have hfalse : memPt (groupCoords g'.1 g'.2) a = false := by
            cases hmm : memPt (groupCoords g'.1 g'.2) a
            · rfl
            · exfalso
              simp only [memPt, List.any_eq_true] at hmm
              obtain ⟨b, hb, hba⟩ := hmm
              have hab : ptEq a b = true := by
                rw [ptEq_symm]
                exact hba
              rw [hno g' (by simp) b hb] at hab
              exact Bool.false_ne_true hab
          rw [hfalse]
          simp
      rw [huntouched rest (gnStep names e) (fun g' hg' b hb => hg g' hg' a ha b hb),
        gnStep_char, memPt_of_mem ha]
      simp
    · exact ih (gnStep names g) hrest e he2 a ha

theorem netlistGroups_disjoint (fcos fsin : ℚ → ℚ) (schema : Schema) :
    GroupsDisjoint (netlistGroups fcos fsin schema) := by
  have hinv := from_fold_inv (collect_points fcos fsin schema) (wiresMap schema)
    (seekFuel (wiresMap schema)) (collect_points_nodesOK fcos fsin schema)
    (collect_points fcos fsin schema) (fun e he => he) ([], [], [])
    ⟨fun e he => absurd he (List.not_mem_nil e), List.Pairwise.nil⟩
  exact hinv.2

/-- C3 (amended): after extraction, the assigned name is recorded
against the seed connection point of a merged group and against every
co-located or wire-reached *node* position of the group (the group's
coordinate list); for every pair of such coordinates `a`, `b` of the
same merged group, `netname a` and `netname b` are both defined and
equal.  (Plain wire coordinates that carry no connection node receive no
entry — see the counterexample.) -/
theorem netlist_name_consistency (fcos fsin : ℚ → ℚ) (schema : Schema) (nl : Netlist)
    (h : netlist_from fcos fsin schema = Except.ok nl) (k : Pt) (items : List Node)
    (hmem : (k, items) ∈ nl.node_positions) (a b : Pt)
    (ha : a ∈ groupCoords k items) (hb : b ∈ groupCoords k items) :
    nl.netname a = nl.netname b ∧ (nl.netname a).isSome = true := by
  have hnl : Netlist.mk (netlistGroups fcos fsin schema)
      (generate_names (netlistGroups fcos fsin schema)) = nl :=
    Except.ok.inj h
  subst hnl
  have hdisj := netlistGroups_disjoint fcos fsin schema
  have hga := gn_fold_lookup _ [] hdisj (k, items) hmem a ha
  have hgb := gn_fold_lookup _ [] hdisj (k, items) hmem b hb
  refine ⟨?_, ?_⟩
  · show lookupPt ((netlistGroups fcos fsin schema).foldl gnStep []) a
      = lookupPt ((netlistGroups fcos fsin schema).foldl gnStep []) b
    rw [hga, hgb]
  · show (lookupPt ((netlistGroups fcos fsin schema).foldl gnStep []) a).isSome = true
    rw [hga]
    rfl

/-- C3 (counterexample): in `labelWireSchema` the traversal from the
label at the origin reaches the wire coordinate `(1,0)`, but no name is
recorded against it — `generate_names` only records the name against the
seed and the positions of connection *nodes* — so `netname` is undefined
at a wire coordinate of the group, contrary to the claim that the name
is recorded against every wire coordinate reached by the traversal. -/
theorem netlist_name_counterexample :
    Pt.mk 1 0 ∈ (seek_wire (wiresMap labelWireSchema)
        (seekFuel (wiresMap labelWireSchema)) ⟨0, 0⟩ []).1 ∧
      ∃ nl, netlist_from trigC trigS labelWireSchema = Except.ok nl ∧
        nl.netname ⟨0, 0⟩ = some "A" ∧ nl.netname ⟨1, 0⟩ = none :=
  ⟨by decide, ⟨_, rfl, by decide, by decide⟩⟩

/-- Witness for `netlist_name_consistency`: the one-junction schema has
the single group seeded at the origin, whose (empty) synthesized name is
recorded there. -/
theorem netlist_name_consistency_witness :
    netlist_from trigC trigS junctionSchema = Except.ok junctionNetlist ∧
      (Pt.mk 0 0, [Node.junction ⟨0, 0⟩]) ∈ junctionNetlist.node_positions ∧
      (junctionNetlist.netname ⟨0, 0⟩ = junctionNetlist.netname ⟨0, 0⟩ ∧
        (junctionNetlist.netname ⟨0, 0⟩).isSome = true) :=
  ⟨rfl, by decide,
   netlist_name_consistency trigC trigS junctionSchema junctionNetlist rfl
     ⟨0, 0⟩ [Node.junction ⟨0, 0⟩] (by decide) ⟨0, 0⟩ ⟨0, 0⟩ (by decide) (by decide)⟩

end Recad
